import Mathlib

/-!
Verification of the libriscv decoder-cache construction pipeline and the
binary-translation driver, as implemented in
`lib/libriscv/decoder_cache.cpp`, `lib/libriscv/decoder_cache.hpp`,
`lib/libriscv/tr_translate.cpp` and `lib/libriscv/tr_emit.cpp`.

Guest memory is modelled as a total byte function `Nat → Nat` (each value
intended `< 256`); guest addresses are natural numbers, with 32-bit
address arithmetic made explicit (`% 2^32`) where the source wraps.
-/

namespace LibRiscv

/-- 32-bit address-space modulus (`address_t` for `W = 4`). -/
def addrMod : Nat := 2 ^ 32

/-- `UnalignedLoad32` (decoder_cache.cpp): two aligned little-endian 16-bit
loads combined as `data[0] | data[1] << 16`.  A 16-bit load of guest bytes
is itself little-endian: `b0 | b1 << 8`. -/
def load16 (seg : Nat → Nat) (pc : Nat) : Nat :=
  seg pc ||| (seg (pc + 1) <<< 8)

/-- `UnalignedLoad32::operator uint32_t` (decoder_cache.cpp, lines 9-14). -/
def load32 (seg : Nat → Nat) (pc : Nat) : Nat :=
  load16 seg pc ||| (load16 seg (pc + 2) <<< 16)

/-- `read_instruction` (decoder_cache.cpp, lines 19-26): a full 32-bit word
when `pc + 4 <= end_pc`, otherwise the 16-bit half-word (zero-extended). -/
def readInstruction (seg : Nat → Nat) (pc endPc : Nat) : Nat :=
  if pc + 4 ≤ endPc then load32 seg pc else load16 seg pc

/-- The spec-side little-endian 32-bit word at `buf[pc]`,
assembled byte by byte. -/
def le32 (seg : Nat → Nat) (pc : Nat) : Nat :=
  seg pc + 2 ^ 8 * seg (pc + 1) + 2 ^ 16 * seg (pc + 2) + 2 ^ 24 * seg (pc + 3)

/-- The spec-side little-endian 16-bit word at `buf[pc]`. -/
def le16 (seg : Nat → Nat) (pc : Nat) : Nat :=
  seg pc + 2 ^ 8 * seg (pc + 1)

/-- A byte buffer: every cell is below 256. -/
def ByteBuf (seg : Nat → Nat) : Prop := ∀ i, seg i < 256

theorem lor_shift_eq_add {a b k : Nat} (ha : a < 2 ^ k) :
    a ||| (b <<< k) = a + 2 ^ k * b := by
  rw [Nat.shiftLeft_eq, Nat.lor_comm, Nat.mul_comm b (2 ^ k),
    ← Nat.mul_add_lt_is_or ha b]
  omega

theorem load16_eq_le16 (seg : Nat → Nat) (h : ByteBuf seg) (pc : Nat) :
    load16 seg pc = le16 seg pc := by
  have h1 := h pc
  unfold load16 le16
  exact lor_shift_eq_add (by omega)

theorem le16_lt (seg : Nat → Nat) (h : ByteBuf seg) (pc : Nat) :
    le16 seg pc < 2 ^ 16 := by
  have h1 := h pc
  have h2 := h (pc + 1)
  unfold le16
  omega

theorem load32_eq_le32 (seg : Nat → Nat) (h : ByteBuf seg) (pc : Nat) :
    load32 seg pc = le32 seg pc := by
  unfold load32
  rw [load16_eq_le16 seg h pc, load16_eq_le16 seg h (pc + 2),
    lor_shift_eq_add (le16_lt seg h pc)]
  unfold le16 le32
  have : pc + 2 + 1 = pc + 3 := by omega
  rw [this]
  ring

/-- C5: the instruction reader returns the unaligned little-endian 32-bit
word at `buf[pc]` when `pc + 4 ≤ end`, and otherwise the little-endian
16-bit half-word at `buf[pc]` zero-extended. -/
theorem readInstruction_spec (seg : Nat → Nat) (pc endPc : Nat)
    (hbuf : ByteBuf seg) (hpc : pc < endPc) :
    readInstruction seg pc endPc =
      if pc + 4 ≤ endPc then le32 seg pc else le16 seg pc := by
  unfold readInstruction
  by_cases h4 : pc + 4 ≤ endPc
  · rw [if_pos h4, if_pos h4, load32_eq_le32 seg hbuf pc]
  · rw [if_neg h4, if_neg h4, load16_eq_le16 seg hbuf pc]

/-- Witness for C5 at a concrete two-byte buffer. -/
theorem readInstruction_spec_witness :
    readInstruction (fun i => if i = 0 then 0x67 else if i = 1 then 0x80 else 0) 0 2 =
      le16 (fun i => if i = 0 then 0x67 else if i = 1 then 0x80 else 0) 0 := by
  have h := readInstruction_spec
    (fun i => if i = 0 then 0x67 else if i = 1 then 0x80 else 0) 0 2
    (by intro i; dsimp only; split <;> first | decide | (split <;> decide))
    (by decide)
  simpa using h

/-! ## RV32I opcodes and the fastsim second pass (no C extension)

Modelled from the spec: the numeric values of the `RV32I_*` opcode
constants live in `instruction_list.hpp`, which is not part of the given
sources; they are the standard RISC-V major opcodes the spec names
(BRANCH, JAL, JALR, AUIPC, SYSTEM, OP_IMM, ...). -/

/-- Low seven bits of an instruction word (`rv32i_instruction::opcode()`). -/
def opcodeOf (w : Nat) : Nat := w &&& 0x7F

def RV32I_LOAD : Nat := 0x03
def RV32I_OP_IMM : Nat := 0x13
def RV32I_AUIPC : Nat := 0x17
def RV32I_BRANCH : Nat := 0x63
def RV32I_JALR : Nat := 0x67
def RV32I_JAL : Nat := 0x6F
def RV32I_SYSTEM : Nat := 0x73

/-- `FASTSIM_BLOCK_END` sentinel (decoder_cache.cpp, line 28). -/
def FASTSIM_BLOCK_END : Nat := 0xFFFF

/-- Block-terminator test of the non-compressed fastsim pass
(decoder_cache.cpp, lines 131-133): opcode BRANCH/SYSTEM/JAL/JALR/AUIPC,
or the decoder entry's `instr` field holds the block-end sentinel. -/
def fastsimTermNC (seg instrAt : Nat → Nat) (lastPc p : Nat) : Bool :=
  let w := readInstruction seg p lastPc
  (opcodeOf w == RV32I_BRANCH) || (opcodeOf w == RV32I_SYSTEM) ||
  (opcodeOf w == RV32I_JAL) || (opcodeOf w == RV32I_JALR) ||
  (opcodeOf w == RV32I_AUIPC) || (instrAt p == FASTSIM_BLOCK_END)

/-- The backward walk of `realize_fastsim` without the C extension
(decoder_cache.cpp, lines 118-142): entries are visited from `last_pc - 4`
down to `base_pc`; a terminator resets the accumulator to 0; the entry
stores the accumulator (a 16-bit `idxend` field, hence `% 2 ^ 16`); the
accumulator is incremented after each entry.  `k` entries
`base, base+4, …, base+4*(k-1)` remain to be visited. -/
def fastsimGoNC (term : Nat → Bool) (base : Nat) :
    Nat → Nat → (Nat → Option Nat) → (Nat → Option Nat)
  | 0, _, m => m
  | k + 1, acc, m =>
      let p := base + 4 * k
      let a := if term p then 0 else acc
      fastsimGoNC term base k (a + 1)
        (fun q => if q = p then some (a % 2 ^ 16) else m q)

/-- `idxend` values after the non-compressed fastsim pass over `n` entries
starting at `base`, with accumulator seeded to 0 and no entry written yet. -/
def fastsimNC (term : Nat → Bool) (base n : Nat) : Nat → Option Nat :=
  fastsimGoNC term base n 0 (fun _ => none)

/-- `realize_fastsim<W>` for a non-compressed configuration: the decoder
segment has one entry per 4 bytes of `[base_pc, last_pc)`; `instrAt` is the
`instr` field left by the first decoding pass. -/
def realizeFastsimNC (seg instrAt : Nat → Nat) (basePc lastPc : Nat) :
    Nat → Option Nat :=
  fastsimNC (fastsimTermNC seg instrAt lastPc) basePc ((lastPc - basePc) / 4)

/-- Specification-side count: number of non-terminating instructions from
entry `i` (inclusive) to the next block terminator, over `r` remaining
entries, with the accumulator seeded to `acc` past the last entry.
The terminator itself counts 0. -/
def distSeed (term : Nat → Bool) (base : Nat) (acc : Nat) : Nat → Nat → Nat
  | _, 0 => 0
  | i, 1 => if term (base + 4 * i) then 0 else acc
  | i, r + 2 => if term (base + 4 * i) then 0 else distSeed term base acc (i + 1) (r + 1) + 1

/-- Number of non-terminating entries between entry `i` and the next
terminator (or the end of the `r` remaining entries). -/
def blockDistNC (term : Nat → Bool) (base : Nat) (i r : Nat) : Nat :=
  distSeed term base 0 i r

theorem distSeed_shift (term : Nat → Bool) (base : Nat) :
    ∀ m i acc, 1 ≤ m →
      distSeed term base acc i (m + 1) =
      distSeed term base ((if term (base + 4 * (i + m)) then 0 else acc) + 1) i m := by
  intro m
  induction m with
  | zero => intro i acc h; omega
  | succ s ih =>
      intro i acc _
      cases s with
      | zero => rfl
      | succ t =>
          have lhs : distSeed term base acc i (t + 3) =
              if term (base + 4 * i) then 0
              else distSeed term base acc (i + 1) (t + 2) + 1 := rfl
          have rhs : distSeed term base
                ((if term (base + 4 * (i + (t + 2))) then 0 else acc) + 1) i (t + 2) =
              if term (base + 4 * i) then 0
              else distSeed term base
                ((if term (base + 4 * (i + (t + 2))) then 0 else acc) + 1) (i + 1) (t + 1) + 1 := rfl
          rw [lhs, rhs]
          have hih := ih (i + 1) acc (by omega)
          have harg : i + 1 + (t + 1) = i + (t + 2) := by omega
          rw [harg] at hih
          rw [hih]

/-- Entries at or above index `k` are never written by the walk. -/
theorem fastsimGoNC_skip (term : Nat → Bool) (base : Nat) :
    ∀ (k : Nat) (acc : Nat) (m : Nat → Option Nat) (i : Nat), k ≤ i →
      fastsimGoNC term base k acc m (base + 4 * i) = m (base + 4 * i) := by
  intro k
  induction k with
  | zero => intro acc m i _; rfl
  | succ k ih =>
      intro acc m i h
      show fastsimGoNC term base k _ _ _ = _
      rw [ih _ _ i (by omega)]
      have hne : base + 4 * i ≠ base + 4 * k := by omega
      simp only [hne, if_false]

/-- The backward walk stores, at each visited entry, the seeded block
distance reduced modulo `2 ^ 16`. -/
theorem fastsimGoNC_lookup (term : Nat → Bool) (base : Nat) :
    ∀ (k : Nat) (acc : Nat) (m : Nat → Option Nat) (i : Nat), i < k →
      fastsimGoNC term base k acc m (base + 4 * i) =
        some (distSeed term base acc i (k - i) % 2 ^ 16) := by
  intro k
  induction k with
  | zero => intro acc m i h; omega
  | succ k ih =>
      intro acc m i h
      show fastsimGoNC term base k _ _ _ = _
      by_cases hik : i < k
      · rw [ih _ _ i hik]
        congr 1
        have hk : k - i = (k - i - 1) + 1 := by omega
        have hk1 : k + 1 - i = (k - i - 1) + 1 + 1 := by omega
        rw [hk, hk1]
        have hsh := distSeed_shift term base (k - i - 1 + 1) i acc (by omega)
        have harg : i + (k - i - 1 + 1) = k := by omega
        rw [harg] at hsh
        rw [hsh]
      · have hik2 : i = k := by omega
        subst hik2
        rw [fastsimGoNC_skip term base i _ _ i (le_refl i)]
        have hlast : i + 1 - i = 1 := by omega
        rw [hlast]
        simp only [if_pos rfl]
        rfl

/-- Characterization of the non-compressed fastsim pass: entry `i` of `n`
holds the number of non-terminating entries to the next terminator
(0 at a terminator), reduced modulo `2 ^ 16`. -/
theorem fastsimNC_lookup (term : Nat → Bool) (base n i : Nat) (h : i < n) :
    fastsimNC term base n (base + 4 * i) =
      some (blockDistNC term base i (n - i) % 2 ^ 16) :=
  fastsimGoNC_lookup term base n 0 _ i h

theorem distSeed_term_zero (term : Nat → Bool) (base acc i : Nat)
    (h : term (base + 4 * i) = true) :
    ∀ r, distSeed term base acc i r = 0 := by
  intro r
  match r with
  | 0 => rfl
  | 1 => show (if term (base + 4 * i) then 0 else acc) = 0; rw [h]; rfl
  | r + 2 =>
      show (if term (base + 4 * i) then 0 else _) = 0
      rw [h]; rfl

theorem distSeed_step (term : Nat → Bool) (base acc i r : Nat)
    (h : term (base + 4 * i) = false) (hr : 2 ≤ r) :
    distSeed term base acc i r = distSeed term base acc (i + 1) (r - 1) + 1 := by
  match r, hr with
  | r + 2, _ =>
      show (if term (base + 4 * i) then 0 else _) = _
      rw [h]
      rfl

/-- C1 (amended): after the non-compressed fastsim pass, for every decoder
entry `p = base_pc + 4 * i` of the segment: if the entry is a block
terminator (opcode BRANCH, JAL, JALR, AUIPC, SYSTEM, or `instr` field
`0xFFFF`) then `idxend[p] = 0`; otherwise, when `p + 4` is still an entry,
`idxend[p] = (idxend[p + 4] + 1) % 2 ^ 16` (the stored field is 16 bits
wide); and `idxend[p]` equals the number of non-terminating instructions
between `p` and the next block terminator (or the segment end), reduced
modulo `2 ^ 16` — so the unreduced equations of the claim hold whenever
that distance stays below `2 ^ 16`. -/
theorem fastsimNC_recurrence (seg instrAt : Nat → Nat) (basePc lastPc i : Nat)
    (h : i < (lastPc - basePc) / 4) :
    (fastsimTermNC seg instrAt lastPc (basePc + 4 * i) = true →
      realizeFastsimNC seg instrAt basePc lastPc (basePc + 4 * i) = some 0) ∧
    (fastsimTermNC seg instrAt lastPc (basePc + 4 * i) = false →
      i + 1 < (lastPc - basePc) / 4 →
      ∃ v, realizeFastsimNC seg instrAt basePc lastPc (basePc + 4 * (i + 1)) = some v ∧
        realizeFastsimNC seg instrAt basePc lastPc (basePc + 4 * i) =
          some ((v + 1) % 2 ^ 16)) ∧
    realizeFastsimNC seg instrAt basePc lastPc (basePc + 4 * i) =
      some (blockDistNC (fastsimTermNC seg instrAt lastPc) basePc i
              ((lastPc - basePc) / 4 - i) % 2 ^ 16) := by
  set term := fastsimTermNC seg instrAt lastPc with hterm
  set n := (lastPc - basePc) / 4 with hn
  have hmain := fastsimNC_lookup term basePc n i h
  have hrw : ∀ q, realizeFastsimNC seg instrAt basePc lastPc q =
      fastsimNC term basePc n q := fun _ => rfl
  refine ⟨?_, ?_, hmain⟩
  · intro ht
    rw [hrw, hmain]
    unfold blockDistNC
    rw [distSeed_term_zero term basePc 0 i ht]
    norm_num
  · intro hf hi1
    have hnext := fastsimNC_lookup term basePc n (i + 1) hi1
    refine ⟨blockDistNC term basePc (i + 1) (n - (i + 1)) % 2 ^ 16, ?_, ?_⟩
    · rw [hrw]; exact hnext
    rw [hrw, hmain]
    unfold blockDistNC
    rw [distSeed_step term basePc 0 i (n - i) hf (by omega)]
    have harg : n - i - 1 = n - (i + 1) := by omega
    rw [harg, Nat.add_mod (distSeed term basePc 0 (i + 1) (n - (i + 1))) 1]
    norm_num

theorem distSeed_all_false (term : Nat → Bool) (base : Nat) :
    ∀ r i, (∀ j, i ≤ j → j < i + r + 1 → term (base + 4 * j) = false) →
      distSeed term base 0 i (r + 1) = r := by
  intro r
  induction r with
  | zero =>
      intro i hf
      show (if term (base + 4 * i) then 0 else 0) = 0
      split <;> rfl
  | succ s ih =>
      intro i hf
      rw [distSeed_step term base 0 i (s + 2) (hf i (le_refl i) (by omega)) (by omega)]
      have harith : s + 2 - 1 = s + 1 := by omega
      rw [harith, ih (i + 1) (fun j hj1 hj2 => hf j (by omega) (by omega))]

/-- A straight-line segment: every aligned word is `ADDI x0, x0, 0`
(`0x00000013`), so no entry is a terminator. -/
def segAddi : Nat → Nat := fun a => if a % 4 = 0 then 0x13 else 0

theorem segAddi_term_false (lastPc : Nat) (i : Nat)
    (h : 0x1000 + 4 * i + 4 ≤ lastPc) :
    fastsimTermNC segAddi (fun _ => 0x13) lastPc (0x1000 + 4 * i) = false := by
  have hread : readInstruction segAddi (0x1000 + 4 * i) lastPc = 0x13 := by
    unfold readInstruction
    rw [if_pos h]
    unfold load32 load16 segAddi
    have h0 : (0x1000 + 4 * i) % 4 = 0 := by omega
    have h1 : (0x1000 + 4 * i + 1) % 4 = 1 := by omega
    have h2 : (0x1000 + 4 * i + 2) % 4 = 2 := by omega
    have h3 : (0x1000 + 4 * i + 2 + 1) % 4 = 3 := by omega
    simp only [h0, h1, h2, h3]
    norm_num
  unfold fastsimTermNC
  rw [hread]
  rfl

/-- C1 counterexample: on a straight-line segment of `2 ^ 16 + 1` ADDI
instructions, the first entry is not a terminator, yet its stored `idxend`
is `0` while the next entry's is `65535`: the claimed equation
`idxend[p] = idxend[p+4] + 1` fails (the 16-bit field wrapped). -/
theorem fastsimNC_wrap_counterexample :
    fastsimTermNC segAddi (fun _ => 0x13) (0x1000 + 4 * 65537) 0x1000 = false ∧
    realizeFastsimNC segAddi (fun _ => 0x13) 0x1000 (0x1000 + 4 * 65537) 0x1000 =
      some 0 ∧
    realizeFastsimNC segAddi (fun _ => 0x13) 0x1000 (0x1000 + 4 * 65537) 0x1004 =
      some 65535 ∧
    (0 : Nat) ≠ 65535 + 1 := by
  have hterm : ∀ j : Nat, j < 65537 →
      fastsimTermNC segAddi (fun _ => 0x13) (0x1000 + 4 * 65537) (0x1000 + 4 * j) = false := by
    intro j hj
    exact segAddi_term_false (0x1000 + 4 * 65537) j (by omega)
  have hn : (0x1000 + 4 * 65537 - 0x1000) / 4 = 65537 := by norm_num
  have h0 := fastsimNC_lookup (fastsimTermNC segAddi (fun _ => 0x13) (0x1000 + 4 * 65537))
    0x1000 65537 0 (by omega)
  have h1 := fastsimNC_lookup (fastsimTermNC segAddi (fun _ => 0x13) (0x1000 + 4 * 65537))
    0x1000 65537 1 (by omega)
  have hd0 : blockDistNC (fastsimTermNC segAddi (fun _ => 0x13) (0x1000 + 4 * 65537))
      0x1000 0 (65537 - 0) = 65536 := by
    show blockDistNC _ _ 0 (65536 + 1) = 65536
    unfold blockDistNC
    exact distSeed_all_false (fastsimTermNC segAddi (fun _ => 0x13) (0x1000 + 4 * 65537))
      0x1000 65536 0 (fun j hj1 hj2 => hterm j (by omega))
  have hd1 : blockDistNC (fastsimTermNC segAddi (fun _ => 0x13) (0x1000 + 4 * 65537))
      0x1000 1 (65537 - 1) = 65535 := by
    show blockDistNC _ _ 1 (65535 + 1) = 65535
    unfold blockDistNC
    exact distSeed_all_false (fastsimTermNC segAddi (fun _ => 0x13) (0x1000 + 4 * 65537))
      0x1000 65535 1 (fun j hj1 hj2 => hterm j (by omega))
  refine ⟨hterm 0 (by omega), ?_, ?_, by omega⟩
  · show realizeFastsimNC _ _ _ _ (0x1000 + 4 * 0) = some 0
    unfold realizeFastsimNC
    rw [hn, h0, hd0]
    norm_num
  · show realizeFastsimNC _ _ _ _ (0x1000 + 4 * 1) = some 65535
    unfold realizeFastsimNC
    rw [hn, h1, hd1]
    norm_num

/-- A two-instruction segment `[ADDI x0,x0,0 ; JALR x0,x1,0]` at `0x1000`,
also used as its own decoder `instr` map. -/
def segSmall : Nat → Nat := fun a =>
  [0x13, 0, 0, 0, 0x67, 0x80, 0, 0].getD (a - 0x1000) 0

/-- Witness for the amended C1 theorem on the two-instruction segment:
the first entry is not a terminator and stores `idxend = (0 + 1) % 2^16`. -/
theorem fastsimNC_recurrence_witness :
    fastsimTermNC segSmall segSmall 0x1008 0x1000 = false ∧
    realizeFastsimNC segSmall segSmall 0x1000 0x1008 0x1000 = some ((0 + 1) % 2 ^ 16) := by
  have h := fastsimNC_recurrence segSmall segSmall 0x1000 0x1008 0 (by decide)
  refine ⟨by decide, ?_⟩
  obtain ⟨v, hv1, hv2⟩ := h.2.1 (by decide) (by decide)
  have hv0 : realizeFastsimNC segSmall segSmall 0x1000 0x1008 (0x1000 + 4 * (0 + 1)) =
      some 0 := by decide
  rw [hv1] at hv0
  have hveq : v = 0 := by
    have := Option.some.inj hv0
    omega
  subst hveq
  simpa using hv2


/-! ## Decoder-entry accessors (decoder_cache.hpp, lines 54-65) -/

/-- `DecoderData::block_bytes()`: `idxend * (compressed_enabled ? 2 : 4)`. -/
def block_bytes (compressed : Bool) (idxend : Nat) : Nat :=
  idxend * (if compressed then 2 else 4)

/-- `DecoderData::instruction_count()` without `RISCV_EXT_COMPRESSED`:
`idxend + 1` (an `int` in the source). -/
def instruction_count_nc (idxend : Nat) : Int := (idxend : Int) + 1

/-- `DecoderData::instruction_count()` with `RISCV_EXT_COMPRESSED`:
`idxend + 1 - icount` (an `int` in the source). -/
def instruction_count_c (idxend icount : Nat) : Int :=
  (idxend : Int) + 1 - (icount : Int)

/-- C10: accessor relations of `DecoderData`: without the C extension
`instruction_count() = idxend + 1` and `block_bytes() = 4 * idxend`; with
it `block_bytes() = 2 * idxend` and `instruction_count() = idxend + 1 -
icount`; and a block-terminating entry after the non-compressed fastsim
pass (its `idxend` is 0) reports `instruction_count() = 1` and
`block_bytes() = 0`. -/
theorem decoderData_accessor_relations :
    (∀ x : Nat, instruction_count_nc x = (x : Int) + 1) ∧
    (∀ x : Nat, block_bytes false x = 4 * x) ∧
    (∀ x : Nat, block_bytes true x = 2 * x) ∧
    (∀ x y : Nat, instruction_count_c x y = (x : Int) + 1 - (y : Int)) ∧
    (∀ seg instrAt basePc lastPc i, i < (lastPc - basePc) / 4 →
      fastsimTermNC seg instrAt lastPc (basePc + 4 * i) = true →
      ∀ v, realizeFastsimNC seg instrAt basePc lastPc (basePc + 4 * i) = some v →
        instruction_count_nc v = 1 ∧ block_bytes false v = 0) := by
  refine ⟨fun x => rfl, fun x => by simp [block_bytes, Nat.mul_comm],
    fun x => by simp [block_bytes, Nat.mul_comm], fun x y => rfl, ?_⟩
  intro seg instrAt basePc lastPc i hi ht v hv
  have hzero : realizeFastsimNC seg instrAt basePc lastPc (basePc + 4 * i) = some 0 := by
    unfold realizeFastsimNC
    rw [fastsimNC_lookup _ basePc _ i hi]
    unfold blockDistNC
    rw [distSeed_term_zero _ basePc 0 i ht]
    norm_num
  rw [hzero] at hv
  have hv0 : v = 0 := by
    have := Option.some.inj hv
    omega
  subst hv0
  exact ⟨rfl, rfl⟩

/-- Witness for C10 at the two-instruction segment: the JALR entry at
`0x1004` of `segSmall` is a terminator with `idxend = 0`. -/
theorem decoderData_accessor_relations_witness :
    instruction_count_nc 0 = 1 ∧ block_bytes false 0 = 0 := by
  have h := decoderData_accessor_relations
  exact h.2.2.2.2 segSmall segSmall 0x1000 0x1008 1 (by decide) (by decide) 0 (by decide)


/-! ## Fastsim second pass with the C extension (decoder_cache.cpp, 68-117)

Modelled from the spec where the header is missing from the sources:
`rv32c_instruction` field accessors (`rvc.hpp`) follow the standard RVC
layout the spec names (2-bit op in bits 0-1, funct3 in bits 13-15, `CR.rd`
in bits 7-11, `CR.rs2` in bits 2-6), and `rv32i_instruction::length()`
(`rv32i_instr.hpp`) is 2 bytes unless the two low bits are `11`. -/

/-- `rv32i_instruction::length()`: compressed instructions are 2 bytes,
full instructions 4. -/
def lengthOf (w : Nat) : Nat := if w &&& 3 = 3 then 4 else 2

/-- `CI_CODE(x, y) = (x << 13) | y` (decoder_cache.cpp, line 33). -/
def ciCode (x y : Nat) : Nat := (x <<< 13) ||| y

/-- `rv32c_instruction::opcode()`: funct3 (bits 13-15) and op (bits 0-1). -/
def rvcOpcode (h : Nat) : Nat := h &&& 0xE003

/-- `rv32c_instruction::CR.rd` (bits 7-11). -/
def rvcCRrd (h : Nat) : Nat := (h >>> 7) &&& 0x1F

/-- `rv32c_instruction::CR.rs2` (bits 2-6). -/
def rvcCRrs2 (h : Nat) : Nat := (h >>> 2) &&& 0x1F

/-- `is_regular_compressed<W>` (decoder_cache.cpp, lines 30-54): true when
the 16-bit instruction cannot modify PC.  `W` is the address width in
bytes (4 or 8). -/
def is_regular_compressed (W : Nat) (h : Nat) : Bool :=
  let op := rvcOpcode h
  if op = ciCode 1 1 then
    (if 8 ≤ W then true else false)
  else if op = ciCode 5 1 then false
  else if op = ciCode 6 1 then false
  else if op = ciCode 7 1 then false
  else if op = ciCode 4 2 then
    (let topbit := h &&& (1 <<< 12) ≠ 0
     if ¬topbit ∧ rvcCRrd h ≠ 0 ∧ rvcCRrs2 h = 0 then false
     else if topbit ∧ rvcCRrd h ≠ 0 ∧ rvcCRrs2 h = 0 then false
     else true)
  else true

/-- Block-terminator test of the compressed fastsim phase-A walk
(decoder_cache.cpp, lines 89-99): a 16-bit instruction that can modify PC,
or a 32-bit BRANCH/SYSTEM/JAL/JALR/AUIPC, or the entry's `instr` field
holding the block-end sentinel. -/
def isBlockEndC (W : Nat) (w instrField : Nat) : Bool :=
  if lengthOf w = 2 then
    ! is_regular_compressed W (w &&& 0xFFFF)
  else
    (opcodeOf w == RV32I_BRANCH) || (opcodeOf w == RV32I_SYSTEM) ||
    (opcodeOf w == RV32I_JAL) || (opcodeOf w == RV32I_JALR) ||
    (opcodeOf w == RV32I_AUIPC) || (instrField == FASTSIM_BLOCK_END)

/-- Phase A of the compressed fastsim pass: collect the instruction-start
addresses of one block, advancing by real instruction length, until a
block-terminating instruction (or the end of the segment).  The loop
advances by at least 2 bytes per entry, so `lastPc - pc` steps always
suffice; `fuel` only bounds the recursion. -/
def scanBlockCGo (seg instrAt : Nat → Nat) (W lastPc : Nat) : Nat → Nat → List Nat
  | 0, _ => []
  | fuel + 1, pc =>
    if pc < lastPc then
      (let w := readInstruction seg pc lastPc
       if isBlockEndC W w (instrAt pc) then [pc]
       else pc :: scanBlockCGo seg instrAt W lastPc fuel (pc + lengthOf w))
    else []

def scanBlockC (seg instrAt : Nat → Nat) (W lastPc : Nat) (pc : Nat) : List Nat :=
  scanBlockCGo seg instrAt W lastPc (lastPc - pc) pc

/-- Total half-word length of a list of instruction starts
(the `datalength` accumulated by phase A). -/
def halfSum (seg : Nat → Nat) (lastPc : Nat) : List Nat → Nat
  | [] => 0
  | pc :: rest => lengthOf (readInstruction seg pc lastPc) / 2 + halfSum seg lastPc rest

/-- `overflow_checked_instr_count` (decoder_cache.cpp, lines 59-61). -/
def overflow_checked_instr_count (count : Nat) : Nat :=
  if count > 255 then 255 else count

/-- Result fields written into one decoder entry by phase B. -/
structure FastsimEntryC where
  pc : Nat
  idxend : Nat
  opLen : Nat
  instrCount : Nat
  deriving DecidableEq, Repr

/-- Phase B of the compressed fastsim pass (decoder_cache.cpp, lines
101-115): walk the collected entries with the accumulated `datalength`;
each entry stores the current `datalength` in its 8-bit `idxend`, the
instruction length, and the saturated
`instr_count = min(255, datalength - remaining_entries)`; then
`datalength` drops by the instruction's half-word length. -/
def phaseBC (seg : Nat → Nat) (lastPc : Nat) : List Nat → Nat → List FastsimEntryC
  | [], _ => []
  | pc :: rest, d =>
      let len := lengthOf (readInstruction seg pc lastPc)
      { pc := pc, idxend := d % 2 ^ 8, opLen := len,
        instrCount := overflow_checked_instr_count (d - (rest.length + 1)) } ::
      phaseBC seg lastPc rest (d - len / 2)

/-- One block of `realize_fastsim<W>` with the C extension: phase A
followed by phase B. -/
def fastsimBlockC (seg instrAt : Nat → Nat) (W lastPc pc0 : Nat) : List FastsimEntryC :=
  let bs := scanBlockC seg instrAt W lastPc pc0
  phaseBC seg lastPc bs (halfSum seg lastPc bs)


/-- Default entry for indexed access. -/
def entryDflt : FastsimEntryC := ⟨0, 0, 0, 0⟩

theorem overflow_checked_instr_count_eq_min (c : Nat) :
    overflow_checked_instr_count c = min 255 c := by
  unfold overflow_checked_instr_count
  split <;> omega

theorem phaseBC_length (seg : Nat → Nat) (lastPc : Nat) :
    ∀ (l : List Nat) (d : Nat), (phaseBC seg lastPc l d).length = l.length := by
  intro l
  induction l with
  | nil => intro d; rfl
  | cons pc rest ih =>
      intro d
      show (_ :: phaseBC seg lastPc rest _).length = _
      simp [ih]

theorem phaseBC_head_idxend (seg : Nat → Nat) (lastPc : Nat)
    (pc : Nat) (rest : List Nat) (d : Nat) :
    ((phaseBC seg lastPc (pc :: rest) d).getD 0 entryDflt).idxend = d % 2 ^ 8 := rfl

/-- `idxend` is non-increasing along the entries of a block, provided the
block's total half-word length fits the 8-bit field. -/
theorem phaseBC_mono (seg : Nat → Nat) (lastPc : Nat) :
    ∀ (l : List Nat) (d : Nat), d ≤ 255 → ∀ j, j + 1 < l.length →
      ((phaseBC seg lastPc l d).getD (j + 1) entryDflt).idxend ≤
        ((phaseBC seg lastPc l d).getD j entryDflt).idxend := by
  intro l
  induction l with
  | nil => intro d hd j hj; simp at hj
  | cons pc rest ih =>
      intro d hd j hj
      cases j with
      | zero =>
          have hrest : 0 < rest.length := by simpa using hj
          obtain ⟨q, r, hqr⟩ : ∃ q r, rest = q :: r := by
            cases rest with
            | nil => simp at hrest
            | cons q r => exact ⟨q, r, rfl⟩
          subst hqr
          show ((phaseBC seg lastPc (q :: r) _).getD 0 entryDflt).idxend ≤
            (({ pc := pc, idxend := d % 2 ^ 8, opLen := _, instrCount := _ } :
              FastsimEntryC)).idxend
          rw [phaseBC_head_idxend]
          have h1 : d % 2 ^ 8 = d := Nat.mod_eq_of_lt (by omega)
          have h2 := Nat.mod_le (d - lengthOf (readInstruction seg pc lastPc) / 2) (2 ^ 8)
          simp only [h1]
          omega
      | succ j =>
          show ((phaseBC seg lastPc rest _).getD (j + 1) entryDflt).idxend ≤
            ((phaseBC seg lastPc rest _).getD j entryDflt).idxend
          exact ih _ (by omega) j (by simpa using hj)

/-- When run with the block's accumulated half-word length, the last entry
(the block terminator, when phase A found one) stores its own length in
half-words. -/
theorem phaseBC_last (seg : Nat → Nat) (lastPc : Nat) :
    ∀ (l : List Nat), l ≠ [] →
      ((phaseBC seg lastPc l (halfSum seg lastPc l)).getD (l.length - 1) entryDflt).idxend =
        lengthOf (readInstruction seg (l.getD (l.length - 1) 0) lastPc) / 2 := by
  intro l
  induction l with
  | nil => intro h; exact absurd rfl h
  | cons pc rest ih =>
      intro _
      cases rest with
      | nil =>
          show (lengthOf (readInstruction seg pc lastPc) / 2 + halfSum seg lastPc []) % 2 ^ 8 =
            lengthOf (readInstruction seg pc lastPc) / 2
          have hlen : lengthOf (readInstruction seg pc lastPc) / 2 ≤ 2 := by
            unfold lengthOf; split <;> omega
          have hz : halfSum seg lastPc [] = 0 := rfl
          rw [hz]
          omega
      | cons q r =>
          have hsum : halfSum seg lastPc (pc :: q :: r) -
              lengthOf (readInstruction seg pc lastPc) / 2 =
              halfSum seg lastPc (q :: r) := by
            show lengthOf (readInstruction seg pc lastPc) / 2 + halfSum seg lastPc (q :: r) - _ = _
            omega
          have hlen : (pc :: q :: r).length - 1 = ((q :: r).length - 1) + 1 := by
            simp
          rw [hlen]
          show ((phaseBC seg lastPc (q :: r) _).getD ((q :: r).length - 1) entryDflt).idxend = _
          rw [hsum]
          have hidx : (pc :: q :: r).getD ((q :: r).length - 1 + 1) 0 =
              (q :: r).getD ((q :: r).length - 1) 0 := rfl
          rw [hidx]
          exact ih (by simp)

/-- Each entry's saturated `instr_count` equals
`min(255, half-words remaining from it - entries remaining from it)`. -/
theorem phaseBC_count (seg : Nat → Nat) (lastPc : Nat) :
    ∀ (l : List Nat) (j : Nat), j < l.length →
      ((phaseBC seg lastPc l (halfSum seg lastPc l)).getD j entryDflt).instrCount =
        min 255 (halfSum seg lastPc (l.drop j) - (l.length - j)) := by
  intro l
  induction l with
  | nil => intro j hj; simp at hj
  | cons pc rest ih =>
      intro j hj
      cases j with
      | zero =>
          show overflow_checked_instr_count
              (halfSum seg lastPc (pc :: rest) - (rest.length + 1)) = _
          rw [overflow_checked_instr_count_eq_min]
          simp
      | succ j =>
          have hsum : halfSum seg lastPc (pc :: rest) -
              lengthOf (readInstruction seg pc lastPc) / 2 =
              halfSum seg lastPc rest := by
            show lengthOf (readInstruction seg pc lastPc) / 2 + halfSum seg lastPc rest - _ = _
            omega
          show ((phaseBC seg lastPc rest _).getD j entryDflt).instrCount = _
          rw [hsum, ih j (by simpa using hj)]
          congr 1
          simp [Nat.succ_sub_succ]


/-- C2 (amended): within every block of the compressed fastsim pass:
(1) provided the block's half-word length fits the 8-bit `idxend` field
(`datalength ≤ 255`), the stored `idxend` is monotonically non-increasing
across successive instruction starts; (2) the block's last entry (the
terminator, when phase A found one) stores `idxend` equal to its own
length in half-words; (3) every entry's `instr_count` equals
`min(255, half-words remaining from it - instructions remaining from it)`
— not `min(255, instructions remaining)`, which differs as soon as the
block contains a compressed instruction. -/
theorem fastsimC_block_properties (seg instrAt : Nat → Nat) (W lastPc pc0 : Nat) :
    (halfSum seg lastPc (scanBlockC seg instrAt W lastPc pc0) ≤ 255 →
      ∀ j, j + 1 < (fastsimBlockC seg instrAt W lastPc pc0).length →
        ((fastsimBlockC seg instrAt W lastPc pc0).getD (j + 1) entryDflt).idxend ≤
          ((fastsimBlockC seg instrAt W lastPc pc0).getD j entryDflt).idxend) ∧
    (scanBlockC seg instrAt W lastPc pc0 ≠ [] →
      ((fastsimBlockC seg instrAt W lastPc pc0).getD
          ((scanBlockC seg instrAt W lastPc pc0).length - 1) entryDflt).idxend =
        lengthOf (readInstruction seg
          ((scanBlockC seg instrAt W lastPc pc0).getD
            ((scanBlockC seg instrAt W lastPc pc0).length - 1) 0) lastPc) / 2) ∧
    (∀ j, j < (scanBlockC seg instrAt W lastPc pc0).length →
      ((fastsimBlockC seg instrAt W lastPc pc0).getD j entryDflt).instrCount =
        min 255 (halfSum seg lastPc ((scanBlockC seg instrAt W lastPc pc0).drop j) -
          ((scanBlockC seg instrAt W lastPc pc0).length - j))) := by
  refine ⟨?_, ?_, ?_⟩
  · intro hd j hj
    have hlen : (fastsimBlockC seg instrAt W lastPc pc0).length =
        (scanBlockC seg instrAt W lastPc pc0).length :=
      phaseBC_length seg lastPc _ _
    exact phaseBC_mono seg lastPc _ _ hd j (by rw [← hlen]; exact hj)
  · intro hne
    exact phaseBC_last seg lastPc _ hne
  · intro j hj
    exact phaseBC_count seg lastPc _ j hj

/-- Segment `[C.NOP ; JALR x0, x1, 0]` at `0x1000`: a 2-byte instruction
followed by a 4-byte block terminator. -/
def segC2 : Nat → Nat := fun a =>
  [0x01, 0x00, 0x67, 0x80, 0x00, 0x00].getD (a - 0x1000) 0

/-- One compressed instruction followed by 128 full-width ADDIs at
`0x1000` (514 bytes, 257 half-words, no terminator before the segment
end): big enough to wrap the 8-bit `idxend` field and compressed enough
to break the claim's `instr_count` reading. -/
def segC2b : Nat → Nat := fun a =>
  if a = 0x1000 then 0x01
  else if 0x1000 + 2 ≤ a ∧ a < 0x1000 + 514 ∧ (a - 0x1000 - 2) % 4 = 0 then 0x13
  else 0

set_option maxRecDepth 10000 in
/-- C2 counterexample: in the 129-instruction block `[C.NOP ; 128 × ADDI]`
(514 bytes, `datalength = 257` half-words) both asserted properties fail:
the stored 8-bit `idxend` of the second entry is `256 % 256 = 0` while
the third entry stores `254`, so `idxend` is not monotonically
non-increasing; and the first entry has 129 instructions remaining but
stores `instr_count = min(255, 257 - 129) = 128`, not
`min(255, 129) = 129`. -/
theorem fastsimC_instr_count_counterexample :
    (scanBlockC segC2b (fun _ => 0) 4 0x1202 0x1000).length = 129 ∧
    ((fastsimBlockC segC2b (fun _ => 0) 4 0x1202 0x1000).getD 1 entryDflt).idxend = 0 ∧
    ((fastsimBlockC segC2b (fun _ => 0) 4 0x1202 0x1000).getD 2 entryDflt).idxend = 254 ∧
    ¬((0 : Nat) ≥ 254) ∧
    ((fastsimBlockC segC2b (fun _ => 0) 4 0x1202 0x1000).getD 0 entryDflt).instrCount = 128 ∧
    (128 : Nat) ≠ min 255 129 := by
  refine ⟨by decide, by decide, by decide, by decide, by decide, by decide⟩

/-- Witness for the amended C2 theorem on the `[C.NOP ; JALR]` block:
`idxend` falls 3 → 2, the terminator stores its own half-word length 2,
and the first entry's `instr_count` is `min 255 (3 - 2) = 1`. -/
theorem fastsimC_block_properties_witness :
    ((fastsimBlockC segC2 (fun _ => 0) 4 0x1006 0x1000).getD 1 entryDflt).idxend ≤
      ((fastsimBlockC segC2 (fun _ => 0) 4 0x1006 0x1000).getD 0 entryDflt).idxend ∧
    ((fastsimBlockC segC2 (fun _ => 0) 4 0x1006 0x1000).getD 1 entryDflt).idxend =
      lengthOf (readInstruction segC2 0x1002 0x1006) / 2 ∧
    ((fastsimBlockC segC2 (fun _ => 0) 4 0x1006 0x1000).getD 0 entryDflt).instrCount =
      min 255 (halfSum segC2 0x1006 ((scanBlockC segC2 (fun _ => 0) 4 0x1006 0x1000).drop 0) - 2) := by
  have h := fastsimC_block_properties segC2 (fun _ => 0) 4 0x1006 0x1000
  refine ⟨h.1 (by decide) 0 (by decide), ?_, ?_⟩
  · have h2 := h.2.1 (by decide)
    have hl : (scanBlockC segC2 (fun _ => 0) 4 0x1006 0x1000).length - 1 = 1 := by decide
    have hg : (scanBlockC segC2 (fun _ => 0) 4 0x1006 0x1000).getD 1 0 = 0x1002 := by decide
    rw [hl, hg] at h2
    exact h2
  · have h3 := h.2.2 0 (by decide)
    have hl : (scanBlockC segC2 (fun _ => 0) 4 0x1006 0x1000).length - 0 = 2 := by decide
    rw [hl] at h3
    exact h3


/-! ## Handler interning (decoder_cache.cpp, lines 278-292)

Handler function pointers are modelled as natural numbers (only their
equality is ever used).  The handler table is the process-wide
`DecoderData::instr_handlers` vector; its initialization is not in the
given sources, so it is modelled from the spec: slot 0 is reserved as
"unset/null" and the capacity is bounded at 255 usable slots, i.e. a
256-entry table of empty slots. -/

inductive MachineExceptionKind where
  | INVALID_PROGRAM
  | ILLEGAL_OPERATION
  | MAX_INSTRUCTIONS_REACHED
  | MISALIGNED_INSTRUCTION
  | ILLEGAL_OPCODE
  deriving DecidableEq, Repr

structure MachineException where
  kind : MachineExceptionKind
  msg : String
  deriving DecidableEq, Repr

/-- Outcome of an operation that may throw a `MachineException`. -/
inductive MResult (α : Type) where
  | ok (val : α)
  | error (e : MachineException)
  deriving DecidableEq, Repr

/-- The scan of `handler_index_for` from slot `i` over the remaining
slots: an equal handler yields its index; the first empty slot is filled;
a full table yields nothing. -/
def hifGo (h : Nat) : Nat → List (Option Nat) → Option (Nat × List (Option Nat))
  | _, [] => none
  | i, slot :: rest =>
      match slot with
      | some g =>
          if g = h then some (i, some g :: rest)
          else
            match hifGo h (i + 1) rest with
            | some (j, rest2) => some (j, some g :: rest2)
            | none => none
      | none => some (i, some h :: rest)

/-- `DecoderData::handler_index_for` (decoder_cache.cpp, lines 278-292):
scan slots `1 .. size-1`; return the index of an equal handler, or intern
the handler in the first empty slot; throw `MAX_INSTRUCTIONS_REACHED`
when no slot is left. -/
def handler_index_for (table : List (Option Nat)) (h : Nat) :
    MResult (Nat × List (Option Nat)) :=
  match table with
  | [] => .error ⟨.MAX_INSTRUCTIONS_REACHED, "Not enough instruction handler space"⟩
  | slot0 :: rest =>
      match hifGo h 1 rest with
      | some (i, rest2) => .ok (i, slot0 :: rest2)
      | none => .error ⟨.MAX_INSTRUCTIONS_REACHED, "Not enough instruction handler space"⟩

/-- Modelled from the spec: the handler table before any interning — slot
0 reserved, 255 free slots. -/
def initHandlerTable : List (Option Nat) := List.replicate 256 none

/-- Intern a list of handlers left to right, collecting their indices. -/
def internAll (table : List (Option Nat)) :
    List Nat → MResult (List Nat × List (Option Nat))
  | [] => .ok ([], table)
  | h :: hs =>
      match handler_index_for table h with
      | .ok (i, table2) =>
          match internAll table2 hs with
          | .ok (is, table3) => .ok (i :: is, table3)
          | .error e => .error e
      | .error e => .error e

theorem hifGo_ge (h : Nat) :
    ∀ (rest : List (Option Nat)) (i j : Nat) (rest2 : List (Option Nat)),
      hifGo h i rest = some (j, rest2) → i ≤ j := by
  intro rest
  induction rest with
  | nil => intro i j rest2 hx; simp [hifGo] at hx
  | cons slot rest ih =>
      intro i j rest2 hx
      match slot with
      | some g =>
          by_cases hg : g = h
          · simp [hifGo, hg] at hx
            omega
          · simp only [hifGo, if_neg hg] at hx
            match hrec : hifGo h (i + 1) rest with
            | some (j2, r2) =>
                rw [hrec] at hx
                simp at hx
                have := ih (i + 1) j2 r2 hrec
                omega
            | none => rw [hrec] at hx; simp at hx
      | none =>
          simp [hifGo] at hx
          omega

theorem hifGo_idem (h : Nat) :
    ∀ (rest : List (Option Nat)) (i j : Nat) (rest2 : List (Option Nat)),
      hifGo h i rest = some (j, rest2) → hifGo h i rest2 = some (j, rest2) := by
  intro rest
  induction rest with
  | nil => intro i j rest2 hx; simp [hifGo] at hx
  | cons slot rest ih =>
      intro i j rest2 hx
      match slot with
      | some g =>
          by_cases hg : g = h
          · simp [hifGo, hg] at hx
            obtain ⟨hj, hr⟩ := hx
            subst hj
            rw [← hr]
            simp [hifGo, hg]
          · simp only [hifGo, if_neg hg] at hx
            match hrec : hifGo h (i + 1) rest with
            | some (j2, r2) =>
                rw [hrec] at hx
                simp at hx
                obtain ⟨hj, hr⟩ := hx
                subst hj
                rw [← hr]
                simp only [hifGo, if_neg hg]
                rw [ih (i + 1) j2 r2 hrec]
            | none => rw [hrec] at hx; simp at hx
      | none =>
          simp [hifGo] at hx
          obtain ⟨hj, hr⟩ := hx
          subst hj
          rw [← hr]
          simp [hifGo]

theorem hifGo_slot (h : Nat) :
    ∀ (rest : List (Option Nat)) (i j : Nat) (rest2 : List (Option Nat)),
      hifGo h i rest = some (j, rest2) → rest2.getD (j - i) none = some h := by
  intro rest
  induction rest with
  | nil => intro i j rest2 hx; simp [hifGo] at hx
  | cons slot rest ih =>
      intro i j rest2 hx
      match slot with
      | some g =>
          by_cases hg : g = h
          · simp [hifGo, hg] at hx
            obtain ⟨hj, hr⟩ := hx
            subst hj
            rw [← hr]
            simp [hg]
          · simp only [hifGo, if_neg hg] at hx
            match hrec : hifGo h (i + 1) rest with
            | some (j2, r2) =>
                rw [hrec] at hx
                simp at hx
                obtain ⟨hj, hr⟩ := hx
                subst hj
                rw [← hr]
                have hge := hifGo_ge h rest (i + 1) j2 r2 hrec
                have hstep : j2 - i = (j2 - (i + 1)) + 1 := by omega
                rw [hstep]
                simpa using ih (i + 1) j2 r2 hrec
            | none => rw [hrec] at hx; simp at hx
      | none =>
          simp [hifGo] at hx
          obtain ⟨hj, hr⟩ := hx
          subst hj
          rw [← hr]
          simp

theorem hifGo_chosen (h : Nat) :
    ∀ (rest : List (Option Nat)) (i j : Nat) (rest2 : List (Option Nat)),
      hifGo h i rest = some (j, rest2) →
        rest.getD (j - i) none = some h ∨ rest.getD (j - i) none = none := by
  intro rest
  induction rest with
  | nil => intro i j rest2 hx; simp [hifGo] at hx
  | cons slot rest ih =>
      intro i j rest2 hx
      match slot with
      | some g =>
          by_cases hg : g = h
          · simp [hifGo, hg] at hx
            obtain ⟨hj, _⟩ := hx
            subst hj
            simp [hg]
          · simp only [hifGo, if_neg hg] at hx
            match hrec : hifGo h (i + 1) rest with
            | some (j2, r2) =>
                rw [hrec] at hx
                simp at hx
                obtain ⟨hj, _⟩ := hx
                subst hj
                have hge := hifGo_ge h rest (i + 1) j2 r2 hrec
                have hstep : j2 - i = (j2 - (i + 1)) + 1 := by omega
                rw [hstep]
                simpa using ih (i + 1) j2 r2 hrec
            | none => rw [hrec] at hx; simp at hx
      | none =>
          simp [hifGo] at hx
          obtain ⟨hj, _⟩ := hx
          subst hj
          simp


theorem hifGo_preserve (h : Nat) :
    ∀ (rest : List (Option Nat)) (i j : Nat) (rest2 : List (Option Nat)),
      hifGo h i rest = some (j, rest2) →
      ∀ k v, rest.getD k none = some v → rest2.getD k none = some v := by
  intro rest
  induction rest with
  | nil => intro i j rest2 hx; simp [hifGo] at hx
  | cons slot rest ih =>
      intro i j rest2 hx k v hv
      match slot with
      | some g =>
          by_cases hg : g = h
          · subst hg
            simp [hifGo] at hx
            rw [← hx.2]
            exact hv
          · simp only [hifGo, if_neg hg] at hx
            match hrec : hifGo h (i + 1) rest with
            | some (j2, r2) =>
                rw [hrec] at hx
                simp at hx
                rw [← hx.2]
                cases k with
                | zero => exact hv
                | succ k => exact ih (i + 1) j2 r2 hrec k v hv
            | none => rw [hrec] at hx; simp at hx
      | none =>
          simp [hifGo] at hx
          rw [← hx.2]
          cases k with
          | zero => simp at hv
          | succ k => exact hv

theorem hifGo_prefix (h : Nat) :
    ∀ (rest : List (Option Nat)) (i j : Nat) (rest2 : List (Option Nat)),
      hifGo h i rest = some (j, rest2) →
      ∀ k, k < j - i → ∃ g, rest2.getD k none = some g ∧ g ≠ h := by
  intro rest
  induction rest with
  | nil => intro i j rest2 hx; simp [hifGo] at hx
  | cons slot rest ih =>
      intro i j rest2 hx k hk
      match slot with
      | some g =>
          by_cases hg : g = h
          · simp [hifGo, hg] at hx
            omega
          · simp only [hifGo, if_neg hg] at hx
            match hrec : hifGo h (i + 1) rest with
            | some (j2, r2) =>
                rw [hrec] at hx
                simp at hx
                obtain ⟨hj, hr⟩ := hx
                subst hj
                rw [← hr]
                cases k with
                | zero => exact ⟨g, rfl, hg⟩
                | succ k =>
                    have hge := hifGo_ge h rest (i + 1) j2 r2 hrec
                    exact ih (i + 1) j2 r2 hrec k (by omega)
            | none => rw [hrec] at hx; simp at hx
      | none =>
          simp [hifGo] at hx
          omega

theorem hifGo_of_state (h : Nat) :
    ∀ (rest : List (Option Nat)) (i k : Nat),
      rest.getD k none = some h →
      (∀ m, m < k → ∃ g, rest.getD m none = some g ∧ g ≠ h) →
      hifGo h i rest = some (i + k, rest) := by
  intro rest
  induction rest with
  | nil => intro i k hk _; simp at hk
  | cons slot rest ih =>
      intro i k hk hm
      cases k with
      | zero =>
          have hslot : slot = some h := hk
          subst hslot
          simp [hifGo]
      | succ k =>
          obtain ⟨g, hg, hgne⟩ := hm 0 (by omega)
          have hslot : slot = some g := hg
          subst hslot
          have hrec := ih (i + 1) k hk (fun m hm2 => hm (m + 1) (by omega))
          simp only [hifGo, if_neg hgne, hrec]
          have harg : i + 1 + k = i + (k + 1) := by omega
          rw [harg]

/-- Postcondition of a successful `handler_index_for`: the index is
nonzero, the returned table holds the handler at that index, every
earlier nonzero slot holds a different handler, and every filled slot of
the input table is preserved (slots are never overwritten). -/
theorem hif_post (t : List (Option Nat)) (h : Nat) (i : Nat) (t2 : List (Option Nat))
    (hok : handler_index_for t h = .ok (i, t2)) :
    1 ≤ i ∧ t2.getD i none = some h ∧
    (∀ k, 1 ≤ k → k < i → ∃ g, t2.getD k none = some g ∧ g ≠ h) ∧
    (∀ k v, t.getD k none = some v → t2.getD k none = some v) := by
  match t with
  | [] => simp [handler_index_for] at hok
  | slot0 :: rest =>
      match hsc : hifGo h 1 rest with
      | none => rw [handler_index_for, hsc] at hok; simp at hok
      | some (i0, r2) =>
          rw [handler_index_for, hsc] at hok
          simp at hok
          obtain ⟨hi, ht2⟩ := hok
          subst hi
          have hge := hifGo_ge h rest 1 i0 r2 hsc
          refine ⟨hge, ?_, ?_, ?_⟩
          · rw [← ht2]
            have := hifGo_slot h rest 1 i0 r2 hsc
            have harg : i0 = (i0 - 1) + 1 := by omega
            rw [harg]
            simpa using this
          · intro k hk1 hk2
            rw [← ht2]
            have := hifGo_prefix h rest 1 i0 r2 hsc (k - 1) (by omega)
            have harg : k = (k - 1) + 1 := by omega
            rw [harg]
            simpa using this
          · intro k v hv
            rw [← ht2]
            cases k with
            | zero => exact hv
            | succ k => exact hifGo_preserve h rest 1 i0 r2 hsc k v hv

/-- A table that already holds `h` at slot `i` behind a prefix of other
handlers resolves `h` to `i` and stays unchanged. -/
theorem hif_of_state (t : List (Option Nat)) (h : Nat) (i : Nat)
    (hge : 1 ≤ i) (hslot : t.getD i none = some h)
    (hpref : ∀ k, 1 ≤ k → k < i → ∃ g, t.getD k none = some g ∧ g ≠ h) :
    handler_index_for t h = .ok (i, t) := by
  match t with
  | [] => simp at hslot
  | slot0 :: rest =>
      have hslotr : rest.getD (i - 1) none = some h := by
        have harg : i = (i - 1) + 1 := by omega
        rw [harg] at hslot
        exact hslot
      have hprefr : ∀ m, m < i - 1 → ∃ g, rest.getD m none = some g ∧ g ≠ h := by
        intro m hm
        have := hpref (m + 1) (by omega) (by omega)
        simpa using this
      have hrec := hifGo_of_state h rest 1 (i - 1) hslotr hprefr
      rw [handler_index_for, hrec]
      have harg : 1 + (i - 1) = i := by omega
      rw [harg]

/-- Interning any list of handlers preserves every filled slot. -/
theorem internAll_preserve :
    ∀ (hs : List Nat) (t : List (Option Nat)) (is2 : List Nat) (t3 : List (Option Nat)),
      internAll t hs = .ok (is2, t3) →
      ∀ k v, t.getD k none = some v → t3.getD k none = some v := by
  intro hs
  induction hs with
  | nil =>
      intro t is2 t3 hseq k v hv
      simp [internAll] at hseq
      rw [← hseq.2]
      exact hv
  | cons h rest ih =>
      intro t is2 t3 hseq k v hv
      unfold internAll at hseq
      match hreg : handler_index_for t h with
      | .error e => rw [hreg] at hseq; simp at hseq
      | .ok (i2, tm) =>
          rw [hreg] at hseq
          dsimp only at hseq
          match hrec : internAll tm rest with
          | .error e => rw [hrec] at hseq; simp at hseq
          | .ok (is3, t4) =>
              rw [hrec] at hseq
              simp at hseq
              rw [← hseq.2]
              exact ih tm is3 t4 hrec k v
                ((hif_post t h i2 tm hreg).2.2.2 k v hv)

set_option maxRecDepth 100000 in
/-- C3: handler interning.  A successful `handler_index_for` returns a
nonzero index (slot 0 is never assigned); after any further sequence of
interning requests, asking for the same handler again returns the same
index and leaves the table unchanged — so two instructions decoding to
the same handler always receive the same index, no matter how many other
handlers are interned in between; a different handler interned at any
such later state receives a different (nonzero) index; and after
interning 255 distinct handlers into the fresh table, a 256th distinct
handler throws `MAX_INSTRUCTIONS_REACHED`. -/
theorem handler_interning
    (t : List (Option Nat)) (h1 h2 : Nat) (i : Nat) (t2 : List (Option Nat))
    (hs is2 : List Nat) (t3 : List (Option Nat))
    (hok : handler_index_for t h1 = .ok (i, t2))
    (hseq : internAll t2 hs = .ok (is2, t3)) :
    1 ≤ i ∧
    handler_index_for t3 h1 = .ok (i, t3) ∧
    (∀ j t4, h2 ≠ h1 → handler_index_for t3 h2 = .ok (j, t4) → 1 ≤ j ∧ j ≠ i) ∧
    internAll initHandlerTable (List.range 255) =
      .ok ((List.range 255).map (fun x => x + 1), none :: (List.range 255).map some) ∧
    handler_index_for (none :: (List.range 255).map some) 255 =
      .error ⟨.MAX_INSTRUCTIONS_REACHED, "Not enough instruction handler space"⟩ := by
  obtain ⟨hge, hslot, hpref, hpres⟩ := hif_post t h1 i t2 hok
  have hpres3 := internAll_preserve hs t2 is2 t3 hseq
  have hslot3 : t3.getD i none = some h1 := hpres3 i h1 hslot
  have hpref3 : ∀ k, 1 ≤ k → k < i → ∃ g, t3.getD k none = some g ∧ g ≠ h1 := by
    intro k hk1 hk2
    obtain ⟨g, hg, hgne⟩ := hpref k hk1 hk2
    exact ⟨g, hpres3 k g hg, hgne⟩
  refine ⟨hge, hif_of_state t3 h1 i hge hslot3 hpref3, ?_, by decide, by decide⟩
  intro j t4 hne hok2
  obtain ⟨hjge, hslot4, _, hpres4⟩ := hif_post t3 h2 j t4 hok2
  refine ⟨hjge, ?_⟩
  intro hji
  subst hji
  have hslot4i : t4.getD j none = some h1 := hpres4 j h1 hslot3
  rw [hslot4] at hslot4i
  exact hne (Option.some.inj hslot4i)

set_option maxRecDepth 100000 in
/-- Witness for C3: interning handler `7` into the fresh table yields
index 1; after also interning handler `9`, a second request for `7`
still yields index 1 with the table unchanged. -/
theorem handler_interning_witness :
    1 ≤ 1 ∧
    handler_index_for (none :: some 7 :: some 9 :: List.replicate 253 none) 7 =
      .ok (1, none :: some 7 :: some 9 :: List.replicate 253 none) := by
  have hok : handler_index_for initHandlerTable 7 =
      .ok (1, none :: some 7 :: List.replicate 254 none) := by decide
  have hseq : internAll (none :: some 7 :: List.replicate 254 none) [9] =
      .ok ([2], none :: some 7 :: some 9 :: List.replicate 253 none) := by decide
  have h := handler_interning initHandlerTable 7 9 1
    (none :: some 7 :: List.replicate 254 none) [9] [2]
    (none :: some 7 :: some 9 :: List.replicate 253 none) hok hseq
  exact ⟨h.1, h.2.1⟩

/-! ## Embedded-translation registry (tr_translate.cpp, lines 63-105) -/

/-- One registered embedded translation (tr_translate.cpp, lines 72-81).
The `mappings`, `handlers` and `api_table` pointers are modelled as opaque
numeric identifiers. -/
structure EmbeddedTranslation where
  hash : Nat
  nmappings : Nat
  nhandlers : Nat
  mappings : Nat
  handlers : Nat
  api_table : Nat
  deriving DecidableEq, Repr

/-- The zero value every slot holds at start (the registry is
zero-initialized from BSS). -/
def etDefault : EmbeddedTranslation := ⟨0, 0, 0, 0, 0, 0⟩

def MAX_EMBEDDED : Nat := 12

/-- `EmbeddedTranslations` (tr_translate.cpp, lines 82-86): a fixed array
of `MAX_EMBEDDED` slots and a fill count. -/
structure EmbeddedTranslations where
  translations : List EmbeddedTranslation
  count : Nat
  deriving DecidableEq, Repr

def initEmbeddedTranslations : EmbeddedTranslations :=
  ⟨List.replicate MAX_EMBEDDED etDefault, 0⟩

/-- `register_translation` (tr_translate.cpp, lines 90-105): throw
`INVALID_PROGRAM` when the registry is full, otherwise fill the next slot
and bump the count. -/
def register_translation (regs : EmbeddedTranslations) (tr : EmbeddedTranslation) :
    MResult EmbeddedTranslations :=
  if MAX_EMBEDDED ≤ regs.count then
    .error ⟨.INVALID_PROGRAM, "Too many embedded translations"⟩
  else
    .ok ⟨regs.translations.set regs.count tr, regs.count + 1⟩

/-- Register a list of translations in order. -/
def registerMany (regs : EmbeddedTranslations) :
    List EmbeddedTranslation → MResult EmbeddedTranslations
  | [] => .ok regs
  | a :: rest =>
      match register_translation regs a with
      | .ok r2 => registerMany r2 rest
      | .error e => .error e

theorem registerMany_ok :
    ∀ (args : List EmbeddedTranslation) (regs : EmbeddedTranslations),
      regs.translations.length = MAX_EMBEDDED →
      regs.count + args.length ≤ MAX_EMBEDDED →
      ∃ r2, registerMany regs args = .ok r2 ∧
        r2.count = regs.count + args.length ∧
        r2.translations.length = MAX_EMBEDDED ∧
        (∀ k, k < args.length →
          r2.translations.getD (regs.count + k) etDefault = args.getD k etDefault) ∧
        (∀ k, k < regs.count →
          r2.translations.getD k etDefault = regs.translations.getD k etDefault) := by
  intro args
  induction args with
  | nil =>
      intro regs hlen hcap
      refine ⟨regs, rfl, by simp, hlen, ?_, fun k hk => rfl⟩
      intro k hk
      simp at hk
  | cons a rest ih =>
      intro regs hlen hcap
      have hcount : regs.count < MAX_EMBEDDED := by
        simp [List.length_cons] at hcap
        omega
      have hreg : register_translation regs a =
          .ok ⟨regs.translations.set regs.count a, regs.count + 1⟩ := by
        unfold register_translation
        rw [if_neg (by omega)]
      have hlen2 : (regs.translations.set regs.count a).length = MAX_EMBEDDED := by
        simp [hlen]
      have hcap2 : regs.count + 1 + rest.length ≤ MAX_EMBEDDED := by
        simp [List.length_cons] at hcap
        omega
      obtain ⟨r2, hrm, hc2, hl2, hslots, hpres⟩ :=
        ih ⟨regs.translations.set regs.count a, regs.count + 1⟩ hlen2 hcap2
      simp only at hc2 hslots hpres
      refine ⟨r2, ?_, ?_, hl2, ?_, ?_⟩
      · show registerMany regs (a :: rest) = .ok r2
        unfold registerMany
        rw [hreg]
        exact hrm
      · rw [hc2]
        simp [List.length_cons]
        omega
      · intro k hk
        cases k with
        | zero =>
            have hp := hpres regs.count (by omega)
            have hset : (regs.translations.set regs.count a).getD regs.count etDefault = a := by
              rw [List.getD_eq_getElem?_getD, List.getElem?_set_self (by omega)]
              rfl
            rw [Nat.add_zero, hp, hset]
            rfl
        | succ k =>
            have hs := hslots k (by simp [List.length_cons] at hk; omega)
            have harg : regs.count + (k + 1) = regs.count + 1 + k := by omega
            rw [harg, hs]
            rfl
      · intro k hk
        have hp := hpres k (by omega)
        rw [hp, List.getD_eq_getElem?_getD, List.getElem?_set_ne (by omega),
          ← List.getD_eq_getElem?_getD]

/-- C9: the first 12 registrations succeed, each storing the given record
in the next free slot and bumping the count; a 13th registration throws
`INVALID_PROGRAM` "Too many embedded translations" and does not touch the
registry (the error result carries no updated state). -/
theorem embedded_translation_registry_bound :
    (∀ regs tr, regs.count < MAX_EMBEDDED →
      register_translation regs tr =
        .ok ⟨regs.translations.set regs.count tr, regs.count + 1⟩) ∧
    (∀ regs tr, MAX_EMBEDDED ≤ regs.count →
      register_translation regs tr =
        .error ⟨.INVALID_PROGRAM, "Too many embedded translations"⟩) ∧
    (∀ args : List EmbeddedTranslation, args.length = 12 →
      ∀ tr13, ∃ r2, registerMany initEmbeddedTranslations args = .ok r2 ∧
        r2.count = 12 ∧
        (∀ k, k < 12 → r2.translations.getD k etDefault = args.getD k etDefault) ∧
        register_translation r2 tr13 =
          .error ⟨.INVALID_PROGRAM, "Too many embedded translations"⟩) := by
  refine ⟨?_, ?_, ?_⟩
  · intro regs tr h
    unfold register_translation
    rw [if_neg (by omega)]
  · intro regs tr h
    unfold register_translation
    rw [if_pos h]
  · intro args hargs tr13
    obtain ⟨r2, hrm, hc2, _, hslots, _⟩ :=
      registerMany_ok args initEmbeddedTranslations (by simp [initEmbeddedTranslations, MAX_EMBEDDED])
        (by simp [initEmbeddedTranslations, MAX_EMBEDDED, hargs])
    have hc12 : r2.count = 12 := by
      simpa [initEmbeddedTranslations, hargs] using hc2
    refine ⟨r2, hrm, hc12, ?_, ?_⟩
    · intro k hk
      have := hslots k (by omega)
      simpa [initEmbeddedTranslations] using this
    · unfold register_translation
      rw [if_pos (by simp [MAX_EMBEDDED, hc12])]

/-- Witness for C9: with the registry full (count 12), a further
registration fails with `INVALID_PROGRAM`. -/
theorem embedded_translation_registry_bound_witness :
    register_translation ⟨List.replicate 12 etDefault, 12⟩ etDefault =
      .error ⟨.INVALID_PROGRAM, "Too many embedded translations"⟩ :=
  embedded_translation_registry_bound.2.1 ⟨List.replicate 12 etDefault, 12⟩ etDefault
    (by decide)


/-! ## Translation hash (tr_translate.cpp, lines 107-114 and 205-215)

Modelled from the spec: the CRC32C routine lives in `util/crc32.hpp`,
which is not among the given sources.  It is modelled as the standard
reflected CRC-32C (Castagnoli) bit-by-bit computation; the segment hash
`crc32c_hash()` is the CRC of the segment bytes, and `load_translation`
re-folds it with a CRC pass over the stringified defines exactly as in
`checksum = ~crc32c(~checksum, cflags.c_str(), cflags.size())`. -/

/-- Reflected CRC-32C polynomial. -/
def crc32c_poly : Nat := 0x82F63B78

/-- One bit step of the reflected CRC computation. -/
def crc32cStepBit (c : Nat) : Nat :=
  if c % 2 = 1 then (c / 2) ^^^ crc32c_poly else c / 2

/-- Fold one byte into the CRC state. -/
def crc32cByte (c b : Nat) : Nat :=
  crc32cStepBit (crc32cStepBit (crc32cStepBit (crc32cStepBit
    (crc32cStepBit (crc32cStepBit (crc32cStepBit (crc32cStepBit
      (c ^^^ (b % 256)))))))))

/-- `crc32c(partial, buf, len)`: fold the bytes into the running state. -/
def crc32c (init : Nat) (bytes : List Nat) : Nat :=
  bytes.foldl crc32cByte init

/-- Bitwise complement on 32 bits (`~x` on a `uint32_t`). -/
def not32 (x : Nat) : Nat := x ^^^ 0xFFFFFFFF

/-- `DecodedExecuteSegment::crc32c_hash()`: CRC-32C of the segment bytes
(standard initial value `~0`, final complement). -/
def crc32c_hash (bytes : List Nat) : Nat := not32 (crc32c 0xFFFFFFFF bytes)

/-- `defines_to_string` (tr_translate.cpp, lines 107-114): concatenate
`" -D" + key + "=" + value` over the map in its iteration order; two maps
with identical contents in identical order give identical strings. -/
def defines_to_string (cflags : List (String × String)) : String :=
  cflags.foldl (fun acc p => acc ++ " -D" ++ p.1 ++ "=" ++ p.2) ""

/-- Bytes of a string, as passed to the CRC routine. -/
def stringBytes (s : String) : List Nat := s.data.map Char.toNat

/-- The translation hash computed by `load_translation` (tr_translate.cpp,
lines 205-215): the segment CRC re-folded with a CRC32C pass over the
stringified defines, `~crc32c(~checksum, cflags)`. -/
def translation_hash (bytes : List Nat) (cflags : List (String × String)) : Nat :=
  let checksum := crc32c_hash bytes
  not32 (crc32c (not32 checksum) (stringBytes (defines_to_string cflags)))

/-- C8: hash determinism — for any two segments with identical byte
content and identical feature-flag define maps (in key order), the
translation hash is identical: it is a deterministic function of the
pair (segment bytes, define map). -/
theorem translation_hash_deterministic
    (bytes1 bytes2 : List Nat) (cflags1 cflags2 : List (String × String))
    (hb : bytes1 = bytes2) (hf : cflags1 = cflags2) :
    translation_hash bytes1 cflags1 = translation_hash bytes2 cflags2 := by
  rw [hb, hf]

/-- Witness for C8 at a concrete segment and define map. -/
theorem translation_hash_deterministic_witness :
    translation_hash [0x13, 0, 0, 0] [("RISCV_EXT_C", "1")] =
      translation_hash [0x13, 0, 0, 0] [("RISCV_EXT_C", "1")] :=
  translation_hash_deterministic [0x13, 0, 0, 0] [0x12 + 1, 0, 0, 0]
    [("RISCV_EXT_C", "1")] [("RISCV_EXT_C", "1")] (by norm_num) rfl


/-! ## GP pre-scan of `try_translate` (tr_translate.cpp, lines 381-416)

Modelled from the spec: the instruction field accessors (`Utype.rd`,
`Utype.upper_imm`, `Itype.rd/rs1/funct3/signed_imm`, `Jtype.jump_offset`,
`Btype.signed_imm`) live in `rv32i_instr.hpp`, which is not among the
given sources; they follow the standard RV32 encodings the spec names.
The non-compressed configuration (step 4) is modelled. -/

/-- Destination register field, bits 7-11. -/
def rdOf (w : Nat) : Nat := (w >>> 7) &&& 0x1F

/-- funct3 field, bits 12-14. -/
def funct3Of (w : Nat) : Nat := (w >>> 12) &&& 0x7

/-- rs1 field, bits 15-19. -/
def rs1Of (w : Nat) : Nat := (w >>> 15) &&& 0x1F

/-- Two's-complement value of an `n`-bit field. -/
def signedVal (n v : Nat) : Int :=
  if v < 2 ^ (n - 1) then (v : Int) else (v : Int) - 2 ^ n

/-- `Utype.upper_imm()`: upper 20 bits shifted into place, as a signed
32-bit value. -/
def upperImm (w : Nat) : Int := signedVal 32 (w &&& 0xFFFFF000)

/-- `Itype.signed_imm()`: sign-extended bits 20-31. -/
def iImm (w : Nat) : Int := signedVal 12 (w >>> 20)

/-- 32-bit wrap-around of a signed address computation (`address_t`). -/
def addr32 (x : Int) : Nat := (x % (2 ^ 32 : Int)).toNat

/-- The decision taken by one iteration of the GP scan loop at `pc`
(tr_translate.cpp, lines 387-404): `some gp` when the scan stops at `pc`
with that GP value, `none` when it moves on. -/
def gpMatchAt (seg : Nat → Nat) (endPc pc : Nat) : Option Nat :=
  let w := readInstruction seg pc endPc
  if opcodeOf w = RV32I_AUIPC ∧ rdOf w = 3 then
    let a := readInstruction seg (pc + 4) endPc
    if opcodeOf a = RV32I_OP_IMM ∧ funct3Of a = 0 then
      if rdOf a = 3 ∧ rs1Of a = 3 then
        some (addr32 ((pc : Int) + upperImm w + iImm a))
      else none
    else some (addr32 ((pc : Int) + upperImm w))
  else none

/-- The GP scan loop: step through the segment by 4 bytes, stopping at the
first match; `gp = 0` when no instruction matches.  The loop advances
every iteration, so `endPc - pc` steps of fuel always suffice. -/
def gpScanGo (seg : Nat → Nat) (endPc : Nat) : Nat → Nat → Nat
  | 0, _ => 0
  | fuel + 1, pc =>
      if pc < endPc then
        match gpMatchAt seg endPc pc with
        | some v => v
        | none => gpScanGo seg endPc fuel (pc + 4)
      else 0

def gpScan (seg : Nat → Nat) (basePc endPc : Nat) : Nat :=
  gpScanGo seg endPc (endPc - basePc) basePc

theorem gpScanGo_first (seg : Nat → Nat) (endPc : Nat) :
    ∀ (i : Nat) (fuel pc v : Nat), i < fuel → pc + 4 * i < endPc →
      (∀ j, j < i → gpMatchAt seg endPc (pc + 4 * j) = none) →
      gpMatchAt seg endPc (pc + 4 * i) = some v →
      gpScanGo seg endPc fuel pc = v := by
  intro i
  induction i with
  | zero =>
      intro fuel pc v hfuel hpc hnone hmatch
      match fuel, hfuel with
      | fuel + 1, _ =>
          show (if pc < endPc then _ else 0) = v
          rw [if_pos (by omega)]
          simp only [show pc + 4 * 0 = pc by omega] at hmatch
          rw [hmatch]
  | succ i ih =>
      intro fuel pc v hfuel hpc hnone hmatch
      match fuel, hfuel with
      | fuel + 1, _ =>
          show (if pc < endPc then _ else 0) = v
          rw [if_pos (by omega)]
          have h0 : gpMatchAt seg endPc pc = none := by
            have := hnone 0 (by omega)
            simpa using this
          rw [h0]
          refine ih fuel (pc + 4) v (by omega) (by omega) ?_ ?_
          · intro j hj
            have := hnone (j + 1) (by omega)
            simpa [show pc + 4 * (j + 1) = pc + 4 + 4 * j by omega] using this
          · simpa [show pc + 4 * (i + 1) = pc + 4 + 4 * i by omega] using hmatch

/-- The scenario-S1 segment as amended:
`[AUIPC gp, 0 ; ADDI gp, gp, 8 ; RET]` at `0x1000`, i.e. words
`[0x00000197, 0x00818193, 0x00008067]` (the claim's `0x00000097` encodes
`AUIPC ra, 0`, whose rd is 1, not gp). -/
def segS1Fixed : Nat → Nat := fun a =>
  [0x97, 0x01, 0x00, 0x00, 0x93, 0x81, 0x81, 0x00, 0x67, 0x80, 0x00, 0x00].getD (a - 0x1000) 0

/-- The scenario-S1 segment exactly as the claim states it:
words `[0x00000097, 0x00818193, 0x00008067]` at `0x1000`. -/
def segS1Literal : Nat → Nat := fun a =>
  [0x97, 0x00, 0x00, 0x00, 0x93, 0x81, 0x81, 0x00, 0x67, 0x80, 0x00, 0x00].getD (a - 0x1000) 0

/-- C7 (amended): the GP scan stops at the first PC whose instruction is
an `AUIPC rd=3`; when the following instruction is an `ADDI`-form
(`OP_IMM`, funct3 0) with rd=3 and rs1=3, `gp = pc + auipc.imm +
addi.imm`; when the following instruction is not an `OP_IMM`-funct3-0 at
all, `gp = pc + auipc.imm`; an `OP_IMM`-funct3-0 with other registers
makes the scan move past this AUIPC.  In particular, on the corrected S1
segment `[0x00000197, 0x00818193, 0x00008067]` at `0x1000` (`AUIPC gp`
needs rd=3, i.e. word `0x...197`), GP detection yields `gp = 0x1008`. -/
theorem gp_scan_first_match (seg : Nat → Nat) (basePc endPc i v : Nat)
    (hpc : basePc + 4 * i < endPc)
    (hnone : ∀ j, j < i → gpMatchAt seg endPc (basePc + 4 * j) = none)
    (hmatch : gpMatchAt seg endPc (basePc + 4 * i) = some v) :
    gpScan seg basePc endPc = v ∧
    gpScan segS1Fixed 0x1000 0x100C = 0x1008 := by
  constructor
  · exact gpScanGo_first seg endPc i (endPc - basePc) basePc v (by omega) hpc hnone hmatch
  · decide

/-- Witness for C7 on the corrected S1 segment: the AUIPC at `0x1000`
matches with the following ADDI, so the scan yields `0x1008`. -/
theorem gp_scan_first_match_witness :
    gpScan segS1Fixed 0x1000 0x100C = 0x1008 :=
  (gp_scan_first_match segS1Fixed 0x1000 0x100C 0 0x1008 (by decide)
    (fun j hj => absurd hj (by omega)) (by decide)).1

/-- C7 counterexample: on the segment literally given in the claim
(`[0x00000097, 0x00818193, 0x00008067]` at `0x1000`), GP detection yields
0, not `0x1008`: `0x00000097` is `AUIPC ra, 0` (rd = 1), so no
`AUIPC rd=3` exists and the scan never matches. -/
theorem gp_scan_s1_counterexample :
    rdOf 0x00000097 = 1 ∧
    gpScan segS1Literal 0x1000 0x100C = 0 ∧
    (0 : Nat) ≠ 0x1008 := by
  refine ⟨by decide, by decide, by decide⟩


/-! ## Block scanner of `try_translate` (tr_translate.cpp, lines 346-364
and 418-557), non-compressed configuration (step 4). -/

/-- `RV32_INSTR_STOP`: the STOP sentinel, `SYSTEM` with `imm = 0x7FF`
(modelled from the spec: the constant lives in a header not among the
given sources). -/
def RV32_INSTR_STOP : Nat := 0x7FF00073

/-- `is_stopping_instruction` (tr_translate.cpp, lines 346-364), without
the C extension: JALR, the STOP sentinel, or WFI
(`SYSTEM`, funct3 0, imm 261). -/
def is_stopping_instruction (w : Nat) : Bool :=
  (opcodeOf w == RV32I_JALR) || (w == RV32_INSTR_STOP) ||
  ((opcodeOf w == RV32I_SYSTEM) && (funct3Of w == 0) && ((w >>> 20) &&& 0xFFF == 261))

def ITS_TIME_TO_SPLIT : Nat := 1250

/-- The inner block walk (tr_translate.cpp, lines 435-448): advance by 4
while `pc < endPc`, counting instructions, until at least
`ITS_TIME_TO_SPLIT` instructions were consumed and the current one is a
stopping instruction.  Returns `(block_end, instruction count)`.  The
walk advances every iteration, so `endPc - pc` fuel always suffices. -/
def scanChunkGo (seg : Nat → Nat) (endPc : Nat) : Nat → Nat → Nat → Nat × Nat
  | 0, pc, n => (pc, n)
  | fuel + 1, pc, n =>
      if pc < endPc then
        (let w := readInstruction seg pc endPc
         if n + 1 ≥ ITS_TIME_TO_SPLIT ∧ is_stopping_instruction w then
           (pc + 4, n + 1)
         else scanChunkGo seg endPc fuel (pc + 4) (n + 1))
      else (pc, n)

def scanChunk (seg : Nat → Nat) (endPc pc : Nat) : Nat × Nat :=
  scanChunkGo seg endPc (endPc - pc) pc 0

/-- A scanned block: base, end, and instruction count. -/
structure Blk where
  base : Nat
  bend : Nat
  n : Nat
  deriving DecidableEq, Repr

/-- The outer block loop (tr_translate.cpp, lines 430-557): scan chunks
while `pc < endPc` and `icounter < imax`; a chunk becomes a `BlockInfo`
when it is non-empty and fits the remaining instruction budget
(`icounter + length < imax`); scanning stops when the produced block
count reaches `bmax`.  Returns the full scan trace and the produced
blocks. -/
def tryTranslateGo (seg : Nat → Nat) (endPc imax bmax : Nat) :
    Nat → Nat → Nat → Nat → List Blk × List Blk
  | 0, _, _, _ => ([], [])
  | fuel + 1, pc, ic, np =>
      if pc < endPc ∧ ic < imax then
        (let r := scanChunk seg endPc pc
         let b : Blk := ⟨pc, r.1, r.2⟩
         if r.2 > 0 ∧ ic + r.2 < imax then
           (if bmax ≤ np + 1 then ([b], [b])
            else
              (let rec2 := tryTranslateGo seg endPc imax bmax fuel r.1 (ic + r.2) (np + 1)
               (b :: rec2.1, b :: rec2.2)))
         else
           (let rec2 := tryTranslateGo seg endPc imax bmax fuel r.1 ic np
            (b :: rec2.1, rec2.2)))
      else ([], [])

def tryTranslateBlocks (seg : Nat → Nat) (basePc endPc imax bmax : Nat) :
    List Blk × List Blk :=
  tryTranslateGo seg endPc imax bmax (endPc - basePc) basePc 0 0

/-- Consecutive coverage: each block begins where the previous scan
position ended, and is non-empty. -/
def ChainFrom : Nat → List Blk → Prop
  | _, [] => True
  | p, b :: r => b.base = p ∧ b.base < b.bend ∧ ChainFrom b.bend r

theorem scanChunkGo_shape (seg : Nat → Nat) (endPc : Nat) :
    ∀ (fuel pc n0 : Nat), ∃ k,
      scanChunkGo seg endPc fuel pc n0 = (pc + 4 * k, n0 + k) ∧
      (1 ≤ fuel → pc < endPc → 1 ≤ k) := by
  intro fuel
  induction fuel with
  | zero =>
      intro pc n0
      exact ⟨0, by simp [scanChunkGo], by omega⟩
  | succ fuel ih =>
      intro pc n0
      by_cases hpc : pc < endPc
      · by_cases hstop : n0 + 1 ≥ ITS_TIME_TO_SPLIT ∧
            is_stopping_instruction (readInstruction seg pc endPc) = true
        · refine ⟨1, ?_, fun _ _ => le_refl 1⟩
          show (if pc < endPc then _ else _) = _
          rw [if_pos hpc]
          simp only [hstop.1, hstop.2]
          simp
        · obtain ⟨k, hk, _⟩ := ih (pc + 4) (n0 + 1)
          refine ⟨k + 1, ?_, by omega⟩
          show (if pc < endPc then _ else _) = _
          rw [if_pos hpc]
          have hcond : ¬(n0 + 1 ≥ ITS_TIME_TO_SPLIT ∧
              is_stopping_instruction (readInstruction seg pc endPc) = true) := hstop
          simp only [if_neg hcond]
          rw [hk]
          simp only [Prod.mk.injEq]
          omega
      · exact ⟨0, by simp [scanChunkGo, if_neg hpc, hpc], by omega⟩

theorem scanChunkGo_le (seg : Nat → Nat) (endPc : Nat) :
    ∀ (fuel pc n0 : Nat), pc ≤ endPc → 4 ∣ (endPc - pc) →
      (scanChunkGo seg endPc fuel pc n0).1 ≤ endPc := by
  intro fuel
  induction fuel with
  | zero => intro pc n0 hle _; exact hle
  | succ fuel ih =>
      intro pc n0 hle hdvd
      by_cases hpc : pc < endPc
      · have hstep : pc + 4 ≤ endPc := by
          obtain ⟨c, hc⟩ := hdvd
          omega
        simp only [scanChunkGo]
        rw [if_pos hpc]
        by_cases hstop : n0 + 1 ≥ ITS_TIME_TO_SPLIT ∧
            is_stopping_instruction (readInstruction seg pc endPc) = true
        · simp only [hstop.1, hstop.2]
          simpa using hstep
        · simp only [if_neg hstop]
          refine ih (pc + 4) (n0 + 1) hstep ?_
          obtain ⟨c, hc⟩ := hdvd
          exact ⟨c - 1, by omega⟩
      · simp only [scanChunkGo]
        rw [if_neg hpc]
        omega


theorem chainFrom_base_ge :
    ∀ (l : List Blk) (p : Nat), ChainFrom p l → ∀ b ∈ l, p ≤ b.base := by
  intro l
  induction l with
  | nil => intro p _ b hb; simp at hb
  | cons a r ih =>
      intro p hch b hb
      obtain ⟨hbase, hlt, hrest⟩ := hch
      rcases List.mem_cons.mp hb with hb | hb
      · subst hb; omega
      · have := ih a.bend hrest b hb
        omega

theorem chainFrom_pairwise :
    ∀ (l : List Blk) (p : Nat), ChainFrom p l →
      l.Pairwise (fun x y => x.bend ≤ y.base) := by
  intro l
  induction l with
  | nil => intro p _; exact List.Pairwise.nil
  | cons a r ih =>
      intro p hch
      obtain ⟨hbase, hlt, hrest⟩ := hch
      exact List.Pairwise.cons (fun b hb => chainFrom_base_ge r a.bend hrest b hb)
        (ih a.bend hrest)

theorem tryTranslateGo_spec (seg : Nat → Nat) (endPc imax bmax : Nat) :
    ∀ (fuel pc ic np : Nat),
      ChainFrom pc (tryTranslateGo seg endPc imax bmax fuel pc ic np).1 ∧
      (tryTranslateGo seg endPc imax bmax fuel pc ic np).2.Sublist
        (tryTranslateGo seg endPc imax bmax fuel pc ic np).1 ∧
      (∀ b ∈ (tryTranslateGo seg endPc imax bmax fuel pc ic np).1,
        1 ≤ b.n ∧ b.bend = b.base + 4 * b.n) ∧
      (pc ≤ endPc → 4 ∣ (endPc - pc) →
        ∀ b ∈ (tryTranslateGo seg endPc imax bmax fuel pc ic np).1, b.bend ≤ endPc) := by
  intro fuel
  induction fuel with
  | zero =>
      intro pc ic np
      exact ⟨trivial, List.Sublist.refl _, fun b hb => absurd hb (by simp [tryTranslateGo]),
        fun _ _ b hb => absurd hb (by simp [tryTranslateGo])⟩
  | succ fuel ih =>
      intro pc ic np
      by_cases hcond : pc < endPc ∧ ic < imax
      · obtain ⟨k, hk, hk1⟩ := scanChunkGo_shape seg endPc (endPc - pc) pc 0
        have hkpos : 1 ≤ k := hk1 (by omega) hcond.1
        have hchunk : scanChunk seg endPc pc = (pc + 4 * k, k) := by
          unfold scanChunk
          rw [hk]
          simp
        have hle : pc ≤ endPc → 4 ∣ (endPc - pc) → pc + 4 * k ≤ endPc := by
          intro h1 h2
          have := scanChunkGo_le seg endPc (endPc - pc) pc 0 h1 h2
          rw [hk] at this
          exact this
        have hdvd2 : 4 ∣ (endPc - pc) → pc + 4 * k ≤ endPc →
            4 ∣ (endPc - (pc + 4 * k)) := by
          intro h hle2
          obtain ⟨c, hc⟩ := h
          exact ⟨c - k, by omega⟩
        by_cases hpush : k > 0 ∧ ic + k < imax
        · by_cases hbm : bmax ≤ np + 1
          · have hres : tryTranslateGo seg endPc imax bmax (fuel + 1) pc ic np =
                ([⟨pc, pc + 4 * k, k⟩], [⟨pc, pc + 4 * k, k⟩]) := by
              simp only [tryTranslateGo, if_pos hcond, hchunk, if_pos hpush, if_pos hbm]
            rw [hres]
            refine ⟨⟨rfl, by simp; omega, trivial⟩, List.Sublist.refl _, ?_, ?_⟩
            · intro b hb
              simp at hb
              subst hb
              exact ⟨hkpos, rfl⟩
            · intro h1 h2 b hb
              simp at hb
              subst hb
              exact hle h1 h2
          · have hres : tryTranslateGo seg endPc imax bmax (fuel + 1) pc ic np =
                (⟨pc, pc + 4 * k, k⟩ ::
                    (tryTranslateGo seg endPc imax bmax fuel (pc + 4 * k) (ic + k) (np + 1)).1,
                  ⟨pc, pc + 4 * k, k⟩ ::
                    (tryTranslateGo seg endPc imax bmax fuel (pc + 4 * k) (ic + k) (np + 1)).2) := by
              simp only [tryTranslateGo, if_pos hcond, hchunk, if_pos hpush, if_neg hbm]
            obtain ⟨ha, hb2, hc, hd⟩ := ih (pc + 4 * k) (ic + k) (np + 1)
            rw [hres]
            refine ⟨⟨rfl, by simp; omega, ha⟩, List.Sublist.cons₂ _ hb2, ?_, ?_⟩
            · intro b hb
              rcases List.mem_cons.mp hb with hb | hb
              · subst hb; exact ⟨hkpos, rfl⟩
              · exact hc b hb
            · intro h1 h2 b hb
              have hle2 := hle h1 h2
              rcases List.mem_cons.mp hb with hb | hb
              · subst hb; exact hle2
              · exact hd hle2 (hdvd2 h2 hle2) b hb
        · have hres : tryTranslateGo seg endPc imax bmax (fuel + 1) pc ic np =
              (⟨pc, pc + 4 * k, k⟩ ::
                  (tryTranslateGo seg endPc imax bmax fuel (pc + 4 * k) ic np).1,
                (tryTranslateGo seg endPc imax bmax fuel (pc + 4 * k) ic np).2) := by
            simp only [tryTranslateGo, if_pos hcond, hchunk, if_neg hpush]
          obtain ⟨ha, hb2, hc, hd⟩ := ih (pc + 4 * k) ic np
          rw [hres]
          refine ⟨⟨rfl, by simp; omega, ha⟩, List.Sublist.cons _ hb2, ?_, ?_⟩
          · intro b hb
            rcases List.mem_cons.mp hb with hb | hb
            · subst hb; exact ⟨hkpos, rfl⟩
            · exact hc b hb
          · intro h1 h2 b hb
            have hle2 := hle h1 h2
            rcases List.mem_cons.mp hb with hb | hb
            · subst hb; exact hle2
            · exact hd hle2 (hdvd2 h2 hle2) b hb
      · have hres : tryTranslateGo seg endPc imax bmax (fuel + 1) pc ic np = ([], []) := by
          simp only [tryTranslateGo, if_neg hcond]
        rw [hres]
        exact ⟨trivial, List.Sublist.refl _, fun b hb => absurd hb (by simp),
          fun _ _ b hb => absurd hb (by simp)⟩

/-- C4 (amended): every produced `BlockInfo` covers at least one
instruction (`block_end = block + 4 * n`, `n ≥ 1`); the scan trace is a
contiguous chain — each scanned block begins where the previous scan
position ended — and the produced blocks are a subsequence of it, hence
pairwise non-overlapping and in increasing address order; and
`block_end ≤ segment_end` holds for every produced block provided the
scanned length `end - base` is a multiple of the 4-byte step (otherwise
the final block may overrun the segment end, see the counterexample). -/
theorem block_scanner_invariants (seg : Nat → Nat) (basePc endPc imax bmax : Nat)
    (hbase : basePc ≤ endPc) :
    ChainFrom basePc (tryTranslateBlocks seg basePc endPc imax bmax).1 ∧
    (tryTranslateBlocks seg basePc endPc imax bmax).2.Sublist
      (tryTranslateBlocks seg basePc endPc imax bmax).1 ∧
    (∀ b ∈ (tryTranslateBlocks seg basePc endPc imax bmax).2,
      1 ≤ b.n ∧ b.bend = b.base + 4 * b.n) ∧
    (4 ∣ (endPc - basePc) →
      ∀ b ∈ (tryTranslateBlocks seg basePc endPc imax bmax).2, b.bend ≤ endPc) ∧
    (tryTranslateBlocks seg basePc endPc imax bmax).2.Pairwise
      (fun x y => x.bend ≤ y.base) := by
  obtain ⟨ha, hb, hc, hd⟩ := tryTranslateGo_spec seg endPc imax bmax
    (endPc - basePc) basePc 0 0
  refine ⟨ha, hb, ?_, ?_, ?_⟩
  · intro b hmem
    exact hc b (hb.mem hmem)
  · intro hdvd b hmem
    exact hd hbase hdvd b (hb.mem hmem)
  · exact (chainFrom_pairwise _ basePc ha).sublist hb

/-- C4 counterexample: on a segment whose scanned length is 6 bytes (not
a multiple of 4), the single produced block ends at `base + 8`, past the
segment end `base + 6`: `block_end ≤ segment_end` fails as stated. -/
theorem block_scanner_overrun_counterexample :
    tryTranslateBlocks (fun _ => 0) 0x1000 0x1006 100 10 =
      ([⟨0x1000, 0x1008, 2⟩], [⟨0x1000, 0x1008, 2⟩]) ∧
    ¬((0x1008 : Nat) ≤ 0x1006) := by
  refine ⟨by decide, by decide⟩

/-- Witness for C4 on an 8-byte segment: the produced block ends within
the segment. -/
theorem block_scanner_invariants_witness :
    (⟨0x1000, 0x1008, 2⟩ : Blk) ∈ (tryTranslateBlocks (fun _ => 0) 0x1000 0x1008 100 10).2 ∧
    (⟨0x1000, 0x1008, 2⟩ : Blk).bend ≤ 0x1008 := by
  have h := block_scanner_invariants (fun _ => 0) 0x1000 0x1008 100 10 (by omega)
  exact ⟨by decide, h.2.2.2.1 (by decide) ⟨0x1000, 0x1008, 2⟩ (by decide)⟩


/-! ## Branch and JAL emission (tr_emit.cpp, lines 411-441 and 582-723)

The emitter produces C source text; what the claim is about is the
control transfer the emitted code performs, which these definitions
capture: for a taken branch, the code emitted by `add_branch`, and for a
JAL, the code emitted by the `RV32I_JAL` case of `Emitter::emit`.
Modelled from the spec where headers are missing: `Btype.signed_imm()`
and `Jtype.jump_offset()` follow the standard B- and J-immediate
encodings. -/

/-- `ALIGN_MASK` (tr_emit.cpp, line 43): 1 with the C extension, else 3. -/
def ALIGN_MASK (compressed : Bool) : Nat := if compressed then 1 else 3

/-- `Btype.signed_imm()`: the 13-bit branch offset. -/
def bImm (w : Nat) : Int :=
  signedVal 13 ((((w >>> 31) &&& 1) <<< 12) ||| (((w >>> 7) &&& 1) <<< 11) |||
    (((w >>> 25) &&& 0x3F) <<< 5) ||| (((w >>> 8) &&& 0xF) <<< 1))

/-- `Jtype.jump_offset()`: the 21-bit JAL offset. -/
def jImm (w : Nat) : Int :=
  signedVal 21 ((((w >>> 31) &&& 1) <<< 20) ||| (((w >>> 12) &&& 0xFF) <<< 12) |||
    (((w >>> 20) &&& 1) <<< 11) ||| (((w >>> 21) &&& 0x3FF) <<< 1))

/-- `PCRELA(x)`: `(address_t)(pc + x)` with 32-bit wrap-around. -/
def pcrela (pc : Nat) (x : Int) : Nat := addr32 ((pc : Int) + x)

/-- The code emitted inside the taken side of a branch, or by the JAL
case: every constructor names the control transfer the generated C
performs. -/
inductive Emission where
  | raiseException (kind : MachineExceptionKind) (pc : Nat)
  | gotoLabel (target : Nat)
  | loopGoto (target fallthroughExit : Nat)
  | callBlockThenExit (target : Nat)
  | exitTo (dest : Nat)
  deriving DecidableEq, Repr

/-- `Emitter::add_branch` (tr_emit.cpp, lines 411-441), the taken-branch
body: a destination violating `ALIGN_MASK` emits
`api.exception(cpu, pc, MISALIGNED_INSTRUCTION)`; otherwise a forward (or
limit-ignoring) in-block target emits a `goto`, a backward in-block
target a counter-guarded `goto` with a fall-through exit, and any other
target a plain exit to the destination. -/
def add_branch (compressed : Bool) (pc w jumpPc : Nat) (ignoreLimit : Bool) : Emission :=
  if pcrela pc (bImm w) &&& ALIGN_MASK compressed ≠ 0 then
    .raiseException .MISALIGNED_INSTRUCTION pc
  else if jumpPc ≠ 0 then
    (if jumpPc > pc ∨ ignoreLimit then .gotoLabel jumpPc
     else .loopGoto jumpPc (pcrela pc (bImm w)))
  else .exitTo (pcrela pc (bImm w))

/-- The destination PC computed by the JAL case (tr_emit.cpp, line 652):
the target is masked down to alignment, `(pc + offset) & ~ALIGN_MASK`. -/
def jalDest (compressed : Bool) (pc w : Nat) : Nat :=
  pcrela pc (jImm w) &&& (2 ^ 32 - 1 - ALIGN_MASK compressed)

/-- The control transfer emitted by the `RV32I_JAL` case (tr_emit.cpp,
lines 646-723): an in-block forward target emits a `goto`; an in-block
backward target a counter-guarded `goto` with fall-through exit (plain
`goto` when the instruction limit is ignored); a known global JAL target
with a resolvable block after the current PC a direct call followed by an
exit; anything else a plain exit to the (masked) destination. -/
def emit_jal (compressed : Bool) (pc w beginPc endPc : Nat)
    (globalJumps : List Nat) (withinSegment : Nat → Bool) (blockBase : Nat → Nat)
    (ignoreLimit : Bool) : Emission :=
  let dest := jalDest compressed pc w
  if beginPc ≤ dest ∧ dest < endPc then
    (if dest > pc then .gotoLabel dest
     else if ignoreLimit then .gotoLabel dest
     else .loopGoto dest dest)
  else if dest ∈ globalJumps ∧ withinSegment dest then
    (if blockBase dest ≠ 0 ∧ dest > pc then .callBlockThenExit dest
     else .exitTo dest)
  else .exitTo dest

theorem jalDest_aligned (compressed : Bool) (pc w : Nat) :
    jalDest compressed pc w &&& ALIGN_MASK compressed = 0 := by
  unfold jalDest
  rw [Nat.and_assoc]
  have hmask : (2 ^ 32 - 1 - ALIGN_MASK compressed) &&& ALIGN_MASK compressed = 0 := by
    unfold ALIGN_MASK
    cases compressed <;> decide
  rw [hmask, Nat.and_zero]

/-- All targets an `emit_jal` emission transfers control to. -/
def emissionTargets : Emission → List Nat
  | .raiseException _ _ => []
  | .gotoLabel t => [t]
  | .loopGoto t e => [t, e]
  | .callBlockThenExit t => [t]
  | .exitTo d => [d]

/-- C6 (amended): a taken BRANCH whose destination violates the alignment
mask raises `MISALIGNED_INSTRUCTION` through the exception callback
instead of transferring control; a JAL with a misaligned destination,
however, is masked down to alignment (`dest = (pc + offset) & ~mask`,
which always satisfies the mask) and control is transferred to the masked
destination with no exception raised. -/
theorem misaligned_branch_jal_emission (compressed : Bool) (pc w jumpPc : Nat)
    (ignoreLimit : Bool) (beginPc endPc : Nat) (globalJumps : List Nat)
    (withinSegment : Nat → Bool) (blockBase : Nat → Nat)
    (hmis : pcrela pc (bImm w) &&& ALIGN_MASK compressed ≠ 0) :
    add_branch compressed pc w jumpPc ignoreLimit =
      .raiseException .MISALIGNED_INSTRUCTION pc ∧
    jalDest compressed pc w &&& ALIGN_MASK compressed = 0 ∧
    (∀ kind epc, emit_jal compressed pc w beginPc endPc globalJumps
        withinSegment blockBase ignoreLimit ≠ .raiseException kind epc) ∧
    (∀ t, t ∈ emissionTargets (emit_jal compressed pc w beginPc endPc globalJumps
        withinSegment blockBase ignoreLimit) → t = jalDest compressed pc w) := by
  refine ⟨?_, jalDest_aligned compressed pc w, ?_, ?_⟩
  · unfold add_branch
    rw [if_pos hmis]
  · intro kind epc hx
    unfold emit_jal at hx
    dsimp only at hx
    repeat' split at hx
    all_goals exact Emission.noConfusion hx
  · intro t ht
    unfold emit_jal at ht
    dsimp only at ht
    repeat' split at ht
    all_goals simp [emissionTargets] at ht
    all_goals exact ht

/-- C6 counterexample: the JAL `0x0020006F` (`jal x0, +2`) at `0x1000`
without the C extension has a misaligned destination `0x1002`, yet the
emitted translation does not raise `MISALIGNED_INSTRUCTION`: the
destination is masked down to `0x1000` and a counter-guarded backward
`goto` is emitted. -/
theorem jal_misaligned_counterexample :
    jImm 0x0020006F = 2 ∧
    pcrela 0x1000 (jImm 0x0020006F) &&& ALIGN_MASK false = 2 ∧
    emit_jal false 0x1000 0x0020006F 0x1000 0x1008 [] (fun _ => true) (fun _ => 0) false =
      .loopGoto 0x1000 0x1000 ∧
    Emission.loopGoto 0x1000 0x1000 ≠ .raiseException .MISALIGNED_INSTRUCTION 0x1000 ∧
    Emission.loopGoto 0x1000 0x1000 ≠ .raiseException .MISALIGNED_INSTRUCTION 0x1002 := by
  refine ⟨by decide, by decide, by decide, by decide, by decide⟩

/-- Witness for C6: the branch `BNE x0, x0, +2` (`0x00001163`) at
`0x1000` has a misaligned taken-destination `0x1002` and emits the
`MISALIGNED_INSTRUCTION` exception. -/
theorem misaligned_branch_jal_emission_witness :
    add_branch false 0x1000 0x00001163 0 false =
      .raiseException .MISALIGNED_INSTRUCTION 0x1000 := by
  have h := misaligned_branch_jal_emission false 0x1000 0x00001163 0 false
    0x1000 0x1008 [] (fun _ => true) (fun _ => 0) (by decide)
  exact h.1

end LibRiscv
